import Mathlib

/-!
Verification development for the aerodrome schedule engine
(`scripts/csv_to_ics.py`).  Timestamps are modelled as wall-clock seconds
(`Nat`); `parse_datetime` outcomes in the ingestion pipeline are modelled as
`Option Nat`.  The floating-point luminance computation of `text_color` is
modelled exactly by dyadic rationals (integer mantissa times a power of two)
with round-to-nearest-even at 53 significant bits, which reproduces IEEE-754
binary64 evaluation of the source expression for every reachable input.
-/

/-- Whitespace as recognised by Python `str.strip` / `str.split` (ASCII part). -/
def isWsp (c : Char) : Bool :=
  c == ' ' || c == '\t' || c == '\n' || c == '\r' || c == Char.ofNat 11 || c == Char.ofNat 12

/-- Python `str.lower`, restricted to ASCII letters. -/
def pyLower (s : String) : String :=
  String.mk (s.toList.map Char.toLower)

/-- Python `str.strip()` with no argument: remove leading and trailing whitespace. -/
def pyStrip (s : String) : String :=
  String.mk (((s.toList.dropWhile isWsp).reverse.dropWhile isWsp).reverse)

/-- Python `str.split()` with no argument: split on whitespace runs with no
empty tokens, here with an explicit accumulator holding the (reversed)
current token so that the recursion is structural. -/
def splitWSAcc (acc : List Char) : List Char → List String
  | [] => if acc.isEmpty then [] else [String.mk acc.reverse]
  | c :: cs =>
    if isWsp c then
      if acc.isEmpty then splitWSAcc [] cs
      else String.mk acc.reverse :: splitWSAcc [] cs
    else splitWSAcc (c :: acc) cs

/-- Tokens of a title, per Python `d.split()`. -/
def tokensOf (s : String) : List String := splitWSAcc [] s.toList

/-- Boolean test that `p` is a prefix of the character list `l`. -/
def chPre : List Char → List Char → Bool
  | [], _ => true
  | _ :: _, [] => false
  | a :: as, b :: bs => a == b && chPre as bs

/-- Boolean substring test, modelling Python `needle in hay`. -/
def subOf (needle : List Char) : List Char → Bool
  | [] => chPre needle []
  | c :: rest => chPre needle (c :: rest) || subOf needle rest

/-- Value of one hexadecimal digit, as accepted by Python `int(s, 16)`. -/
def hexDigitVal (c : Char) : Option Nat :=
  if 48 ≤ c.toNat ∧ c.toNat ≤ 57 then some (c.toNat - 48)
  else if 97 ≤ c.toNat ∧ c.toNat ≤ 102 then some (c.toNat - 97 + 10)
  else if 65 ≤ c.toNat ∧ c.toNat ≤ 70 then some (c.toNat - 65 + 10)
  else none

/-- Python `int(s, 16)` on the digit strings arising from color slicing:
fails on the empty string or on any non-hex-digit character
(sign and underscore forms never arise here and are not modelled). -/
def pyIntHex (l : List Char) : Option Nat :=
  match l with
  | [] => none
  | _ => l.foldl (fun acc c =>
      match acc, hexDigitVal c with
      | some a, some v => some (16 * a + v)
      | _, _ => none) (some 0)

/-- Python `bg.lstrip("#")`: remove every leading `'#'`. -/
def stripHashAll : List Char → List Char
  | [] => []
  | c :: cs => if c == '#' then stripHashAll cs else c :: cs

/-- Floor of the base-two logarithm, fuelled recursion (`lg2F n n` is total). -/
def lg2F : Nat → Nat → Nat
  | 0, _ => 0
  | f + 1, n => if n ≤ 1 then 0 else lg2F f (n / 2) + 1

/-- Floor of the base-two logarithm of a positive natural number. -/
def lg2 (n : Nat) : Nat := lg2F n n

/-- Number of binary digits of `n` (0 for 0). -/
def bitlen (n : Nat) : Nat := if n = 0 then 0 else lg2 n + 1

/-- Exact dyadic rational `m * 2 ^ e`, the value space of IEEE-754 binary64
numbers in the range used by the luminance computation. -/
structure Dy where
  m : Int
  e : Int
deriving DecidableEq, Repr

/-- Rational value of a dyadic number (proof-side semantics). -/
noncomputable def dyQ (x : Dy) : ℚ := (x.m : ℚ) * (2 : ℚ) ^ x.e

/-- Exact product of dyadic numbers. -/
def dmul (x y : Dy) : Dy := ⟨x.m * y.m, x.e + y.e⟩

/-- Exact sum of dyadic numbers (align exponents). -/
def dadd (x y : Dy) : Dy :=
  if x.e ≤ y.e then ⟨x.m + y.m * 2 ^ (y.e - x.e).toNat, x.e⟩
  else ⟨x.m * 2 ^ (x.e - y.e).toNat + y.m, y.e⟩

/-- Strict comparison of dyadic numbers. -/
def dltb (x y : Dy) : Bool :=
  if x.e ≤ y.e then decide (x.m < y.m * 2 ^ (y.e - x.e).toNat)
  else decide (x.m * 2 ^ (x.e - y.e).toNat < y.m)

/-- Round a nonnegative integer mantissa right by `s` bits, half to even. -/
def rheShift (m : Int) (s : Nat) : Int :=
  let d : Int := 2 ^ s
  let q := m / d
  let r := m % d
  if r * 2 < d then q else if d < r * 2 then q + 1 else if q % 2 = 0 then q else q + 1

/-- Round a dyadic number to 53 significant bits, half to even: the rounding
IEEE-754 binary64 applies to every arithmetic result in the source range
(no overflow or subnormals arise for luminance values). -/
def drnd (x : Dy) : Dy :=
  let k := bitlen x.m.natAbs
  if k ≤ 53 then x else ⟨rheShift x.m (k - 53), x.e + (k - 53)⟩

/-- The IEEE-754 binary64 number nearest to the literal `0.299`. -/
def c299 : Dy := ⟨5386305154335113, -54⟩

/-- The IEEE-754 binary64 number nearest to the literal `0.587`. -/
def c587 : Dy := ⟨2643612981266481, -52⟩

/-- The IEEE-754 binary64 number nearest to the literal `0.114`. -/
def c114 : Dy := ⟨8214565720323785, -56⟩

/-- Exact value of the binary64 evaluation of
`0.299*r + 0.587*g + 0.114*b` from `text_color`:
each product and each (left-associated) sum is rounded to 53 bits. -/
def fLum (r g b : Nat) : Dy :=
  let p1 := drnd (dmul c299 ⟨(r : Int), 0⟩)
  let p2 := drnd (dmul c587 ⟨(g : Int), 0⟩)
  let p3 := drnd (dmul c114 ⟨(b : Int), 0⟩)
  drnd (dadd (drnd (dadd p1 p2)) p3)

/-- The defensive guard of `text_color`:
`not bg or not bg.startswith("#") or len(bg) not in (4, 7)`. -/
def colorGuard (l : List Char) : Bool :=
  l.isEmpty || !(l.head? == some '#') || !(l.length == 4 || l.length == 7)

/-- The shorthand expansion of `text_color`:
`if len(bg) == 3: bg = "".join(c*2 for c in bg)`. -/
def expand3 (bg0 : List Char) : List Char :=
  if bg0.length == 3 then (bg0.map (fun c => [c, c])).flatten else bg0

/-- The channel-parsing and luminance core of `text_color` on the stripped,
expanded digit list. -/
def colorOf (bg : List Char) : Option String :=
  match pyIntHex (bg.take 2), pyIntHex ((bg.drop 2).take 2), pyIntHex ((bg.drop 4).take 2) with
  | some r, some g, some b =>
    some (if dltb (fLum r g b) ⟨140, 0⟩ then "white" else "black")
  | _, _, _ => none

/-- Python `text_color` from `generate_html` / `generate_display_html`:
returns `some` of the chosen foreground color, or `none` when the Python
function raises `ValueError` (a non-hex digit reaches `int(s, 16)`). -/
def textColor (s : String) : Option String :=
  if colorGuard s.toList then some "black"
  else colorOf (expand3 (stripHashAll s.toList))

/-- A CSV row whose two timestamps parsed, with `start`/`end` as wall-clock
seconds.  Fields mirror the Python row dict: `best_desc`, `desc`,
`resource_id`, `et_color` (strings, empty meaning absent/falsy) and
`synthetic` (Python `row.get('synthetic') == '1'`). -/
structure Row where
  start : Nat
  stop : Nat
  best_desc : String
  desc : String
  resource_id : String
  et_color : String
  synthetic : Bool
deriving DecidableEq, Repr

/-- Python `row.get('best_desc') or row.get('desc') or "Event"`. -/
def bestTitle (r : Row) : String :=
  if r.best_desc ≠ "" then r.best_desc else if r.desc ≠ "" then r.desc else "Event"

/-- Python `int((end - start).total_seconds() / 60)` (whole minutes;
for the nonnegative durations arising here this is floor division). -/
def durationMin (r : Row) : Nat := (r.stop - r.start) / 60

/-- The fixed maintenance keyword set of `generate_html`. -/
def keywords : List String := ["takedown", "ice cut", "icecut"]

/-- Python `any(k in desc_lower for k in keywords) and duration_minutes <= 20`:
a real row detected as an ice cut by keyword plus short duration. -/
def isRealIceCut (r : Row) : Bool :=
  keywords.any (fun k => subOf k.toList (pyLower (bestTitle r)).toList)
    && decide (durationMin r ≤ 20)

/-- Python `is_ice_cut = is_synth or is_real_ice_cut` (`generate_html`):
the canonical maintenance classification. -/
def isIceCut (r : Row) : Bool := r.synthetic || isRealIceCut r

/-- Calendar day of an instant (`datetime.date()` under the wall-clock
seconds model). -/
def dayOf (t : Nat) : Nat := t / 86400

/-- Stable insertion of a row into a list sorted by `start`: the new row goes
before the first member whose start is not smaller, as Python's stable
`sorted(events, key=...)` keeps equal keys in encounter order. -/
def insertByStart (r : Row) : List Row → List Row
  | [] => [r]
  | x :: xs => if x.start < r.start then x :: insertByStart r xs else r :: x :: xs

/-- Python `sorted(events, key=lambda r: parse_datetime(r['start']))`
(stable sort by start). -/
def sortByStart (l : List Row) : List Row := l.foldr insertByStart []

/-- The synthetic maintenance row built by `build_synthetic_icecuts` for a
qualifying gap: `start = current.end`, `end = current.end + gap`, placeholder
title `ICE CUT?`, neutral color, synthetic marker set. -/
def mkSynth (endCur gap : Nat) : Row :=
  ⟨endCur, endCur + gap, "", "ICE CUT?", "1", "#999999", true⟩

/-- The scan of `build_synthetic_icecuts` over adjacent pairs of the sorted
rink rows: gap in seconds; the Python float test `5 < gap_minutes <= 10`
is exactly `300 < gapSeconds ≤ 600` for whole-second timestamps. -/
def synthScan : List Row → List Row
  | c :: n :: rest =>
    (if 300 < n.start - c.stop ∧ n.start - c.stop ≤ 600
     then [mkSynth c.stop (n.start - c.stop)] else [])
      ++ synthScan (n :: rest)
  | _ => []

/-- Python `build_synthetic_icecuts`: filter rink rows (`resource_id == "1"`),
sort by start, emit one synthetic row per qualifying adjacent gap. -/
def buildSyntheticIcecuts (rows : List Row) : List Row :=
  synthScan (sortByStart (rows.filter (fun r => r.resource_id == "1")))

/-- Per-pair specification of the gap synthesizer, used to state its
contract: `some` synthetic record exactly when the gap lies in the
half-open band. -/
def synthPair (c n : Row) : Option Row :=
  if 300 < n.start - c.stop ∧ n.start - c.stop ≤ 600
  then some (mkSynth c.stop (n.start - c.stop)) else none

/-- If every list in the argument starts with `w`, return their tails
(the `all(w == words[0] for w in words)` step of the merger's zip loop). -/
def stepTails (w : String) : List (List String) → Option (List (List String))
  | [] => some []
  | [] :: _ => none
  | (x :: xs) :: rest =>
    if x == w then (stepTails w rest).map (fun ts => xs :: ts) else none

/-- Longest common token-prefix of `f` against all lists in `others`,
stopping at the first position where some list ends or differs: the Python
`for words in zip(*word_lists): if all(w == words[0] for w in words)` loop. -/
def lcpWith (f : List String) (others : List (List String)) : List String :=
  match f with
  | [] => []
  | w :: ws =>
    match stepTails w others with
    | some ts => w :: lcpWith ws ts
    | none => []

/-- Common token-prefix of a nonempty family of token lists (the merger
always calls it with at least two titles). -/
def commonPre : List (List String) → List String
  | [] => []
  | f :: rest => lcpWith f rest

/-- Python merge of one concurrent group `group = cur :: grp` (size ≥ 2):
strip each resolved title, tokenize, take the common token prefix, fall back
to the first stripped title when it is empty, and copy every other field
from the group's first member. -/
def mergeGroup (cur : Row) (grp : List Row) : Row :=
  let descs := (cur :: grp).map (fun x => pyStrip (bestTitle x))
  let cp := commonPre (descs.map tokensOf)
  let m := if cp.isEmpty then descs.headD "" else String.intercalate " " cp
  { cur with desc := m, best_desc := m }

/-- Emit one run of the merger's grouping loop: a singleton run passes
through unchanged, a larger run becomes the merged derived record. -/
def emitRun (cur : Row) (grp : List Row) : Row :=
  if grp.isEmpty then cur else mergeGroup cur grp

/-- The grouping loop of `merge_concurrent_events` with the current run held
in an accumulator (`cur` is the run's first member, `grp` the members
gathered after it), so that the recursion is structural. -/
def mergeRunsAcc (cur : Row) (grp : List Row) : List Row → List Row
  | [] => [emitRun cur grp]
  | r :: rest =>
    if r.start == cur.start then mergeRunsAcc cur (grp ++ [r]) rest
    else emitRun cur grp :: mergeRunsAcc r [] rest

/-- Runs of equal start collapsed in order (the body of
`merge_concurrent_events` after its sort). -/
def mergeRuns : List Row → List Row
  | [] => []
  | r :: rest => mergeRunsAcc r [] rest

/-- Python `merge_concurrent_events`: sort by start, collapse each maximal
run of records sharing a start instant. -/
def mergeConcurrentEvents (events : List Row) : List Row :=
  mergeRuns (sortByStart events)

/-- The running-now test of `generate_html`:
`start.date() == today and start <= now <= end and not is_ice_cut`. -/
def currentCond (now : Nat) (r : Row) : Bool :=
  (dayOf r.start == dayOf now) && decide (r.start ≤ now) && decide (now ≤ r.stop)
    && !(isIceCut r)

/-- The upcoming-event test of `generate_html` (flag handled separately):
`start.date() == today and start > now and not is_ice_cut`. -/
def futureCond (now : Nat) (r : Row) : Bool :=
  (dayOf r.start == dayOf now) && decide (now < r.start) && !(isIceCut r)

/-- The NOW-marking loop of `generate_html` over the (sorted) event list:
`flag` is the mutable `future_now_marked`; the output lists, per rendered
row, whether `id="current-event"` is emitted.  Note the running branch
does not consult the flag, exactly as in the source. -/
def nowMarksAux (now : Nat) (flag : Bool) : List Row → List Bool
  | [] => []
  | r :: rs =>
    if currentCond now r then true :: nowMarksAux now true rs
    else if !flag && futureCond now r then true :: nowMarksAux now true rs
    else false :: nowMarksAux now flag rs

/-- Marking pass of `generate_html` on an already sorted list, starting with
`future_now_marked = False`. -/
def nowMarks (now : Nat) (l : List Row) : List Bool := nowMarksAux now false l

/-- One full `generate_html` render pass: sort, then mark. -/
def generateHtmlMarks (now : Nat) (events : List Row) : List Bool :=
  nowMarks now (sortByStart events)

/-- The now-selector state machine exactly as §4.5 of the specification
words it: scan in order, mark the first event that is eligible (running or
upcoming, never maintenance), mark nothing afterwards. -/
def specSelect (now : Nat) : List Row → List Bool
  | [] => []
  | r :: rs =>
    if currentCond now r || futureCond now r then true :: rs.map (fun _ => false)
    else false :: specSelect now rs

/-- The running test of `generate_display_html` (rows already filtered to
today, so no date conjunct): `start <= now <= end and not is_icecut`. -/
def dCur (now : Nat) (r : Row) : Bool :=
  decide (r.start ≤ now) && decide (now ≤ r.stop) && !(isIceCut r)

/-- The upcoming test of `generate_display_html`:
`start > now and not is_icecut` (flag handled separately). -/
def dFut (now : Nat) (r : Row) : Bool :=
  decide (now < r.start) && !(isIceCut r)

/-- The row loop of `generate_display_html`: hide rows already over
(`end < now`), hide rows of other days, then the same two-branch NOW logic;
one output entry per rendered row. -/
def displayMarksAux (now : Nat) (flag : Bool) : List Row → List Bool
  | [] => []
  | r :: rs =>
    if decide (r.stop < now) then displayMarksAux now flag rs
    else if !(dayOf r.start == dayOf now) then displayMarksAux now flag rs
    else if dCur now r then true :: displayMarksAux now true rs
    else if !flag && dFut now r then true :: displayMarksAux now true rs
    else false :: displayMarksAux now flag rs

/-- The windowing filter of `generate_display_html`: keep rows not yet over
whose start falls on today. -/
def displayKeep (now : Nat) (r : Row) : Bool :=
  !decide (r.stop < now) && (dayOf r.start == dayOf now)

/-- One full `generate_display_html` render pass: merge concurrent events,
sort, then window and mark. -/
def generateDisplayMarks (now : Nat) (events : List Row) : List Bool :=
  displayMarksAux now false (sortByStart (mergeConcurrentEvents events))

/-- A raw CSV row before temporal normalization: `start`/`end` hold the
`parse_datetime` outcome (`none` models a `ValueError`; the other fields are
as in `Row`, plus the optional `description` column used by `add_event`). -/
structure RawRow where
  start : Option Nat
  stop : Option Nat
  best_desc : String
  desc : String
  resource_id : String
  et_color : String
  synthetic : Bool
  description : String
deriving DecidableEq, Repr

/-- Python `RINK_NAMES.get(resource_id, default)`. -/
def rinkName (res dflt : String) : String :=
  if res = "1" then "Ice Rink" else if res = "2" then "Locker Room"
  else if res = "3" then "Room Rental" else dflt

/-- One entry of a generated calendar (the fields `add_event` sets). -/
structure CalEvent where
  summary : String
  dtstart : Nat
  dtend : Nat
  location : String
  descr : String
deriving DecidableEq, Repr

/-- Python `add_event`: parse both timestamps (raising on failure, modelled
as `Except.error`), resolve the title and location, emit one entry. -/
def addEventE (r : RawRow) : Except Unit CalEvent :=
  match r.start with
  | none => .error ()
  | some s =>
    match r.stop with
    | none => .error ()
    | some e =>
      .ok ⟨(if r.best_desc ≠ "" then r.best_desc else if r.desc ≠ "" then r.desc
            else "Event"), s, e, rinkName r.resource_id "Aerodrome", r.description⟩

/-- The CSV ingestion loop of `csv_to_ics` as it affects the main calendar:
each row is offered to `add_event` inside `try/except`, so a failing row is
skipped and the loop continues. -/
def ingestCal : List RawRow → List CalEvent
  | [] => []
  | r :: rs =>
    match addEventE r with
    | .ok ev => ev :: ingestCal rs
    | .error _ => ingestCal rs

/-- Sort-key evaluation of `build_synthetic_icecuts` on raw rows:
`sorted(..., key=lambda r: parse_datetime(r['start']))` parses every start
before sorting, so the first unparseable rink start raises. -/
def keyRowsE : List RawRow → Except Unit (List (Nat × RawRow))
  | [] => .ok []
  | r :: rs =>
    match r.start with
    | none => .error ()
    | some s =>
      match keyRowsE rs with
      | .error u => .error u
      | .ok t => .ok ((s, r) :: t)

/-- Stable insertion by the precomputed start key. -/
def insertByKey (p : Nat × RawRow) : List (Nat × RawRow) → List (Nat × RawRow)
  | [] => [p]
  | x :: xs => if x.1 < p.1 then x :: insertByKey p xs else p :: x :: xs

/-- Stable sort of keyed raw rows by start. -/
def sortByKey (l : List (Nat × RawRow)) : List (Nat × RawRow) :=
  l.foldr insertByKey []

/-- The synthetic raw row emitted by `build_synthetic_icecuts` (its
timestamps round-trip exactly through `strftime`/`strptime`). -/
def mkSynthRaw (endCur gap : Nat) : RawRow :=
  ⟨some endCur, some (endCur + gap), "", "ICE CUT?", "1", "#999999", true, ""⟩

/-- The adjacent-pair loop of `build_synthetic_icecuts` on raw rows: each
iteration re-parses the current row's `end` (raising on failure — this parse
is not protected by any `try/except`). -/
def synthPairsE : List (Nat × RawRow) → Except Unit (List RawRow)
  | (_, r1) :: (s2, r2) :: rest =>
    match r1.stop with
    | none => .error ()
    | some e1 =>
      match synthPairsE ((s2, r2) :: rest) with
      | .error u => .error u
      | .ok tail =>
        .ok ((if 300 < s2 - e1 ∧ s2 - e1 ≤ 600 then [mkSynthRaw e1 (s2 - e1)] else [])
              ++ tail)
  | _ => .ok []

/-- Python `build_synthetic_icecuts` on raw rows, including every
unprotected `parse_datetime` call it performs. -/
def buildSyntheticE (rows : List RawRow) : Except Unit (List RawRow) :=
  match keyRowsE (rows.filter (fun r => r.resource_id == "1")) with
  | .error u => .error u
  | .ok keyed => synthPairsE (sortByKey keyed)

/-- The `ice_real` selection loop of `csv_to_ics`: parses both timestamps of
every row with no `try/except`, so any unparseable row aborts the run. -/
def iceRealE : List RawRow → Except Unit (List RawRow)
  | [] => .ok []
  | r :: rs =>
    match r.start, r.stop with
    | some s, some e =>
      (match iceRealE rs with
       | .error u => .error u
       | .ok tail =>
         let d := pyLower (if r.best_desc ≠ "" then r.best_desc
                           else if r.desc ≠ "" then r.desc else "")
         .ok (if keywords.any (fun k => subOf k.toList d.toList)
                 && decide ((e - s) / 60 ≤ 20)
              then r :: tail else tail))
    | _, _ => .error ()

/-- The characters of `kw` occur contiguously inside `s` (the meaning of
Python `kw in s`). -/
def kwSub (kw s : String) : Prop :=
  ∃ p q : List Char, s.toList = p ++ kw.toList ++ q

/-- Maintenance classification as §4.4 of the specification words it:
synthetic origin, or a keyword in the lower-cased title together with a
whole-minute duration at most the short-duration threshold (20). -/
def specMaintenance (r : Row) : Prop :=
  r.synthetic = true ∨
    ((∃ kw ∈ keywords, kwSub kw (pyLower (bestTitle r))) ∧ durationMin r ≤ 20)

/-- Sample regular morning event used by witnesses. -/
def wRowA : Row := ⟨100, 400, "A", "", "1", "", false⟩

/-- Sample synthetic maintenance event used by witnesses. -/
def wRowIce : Row := ⟨36000, 36300, "", "ICE CUT?", "1", "#999999", true⟩

/-- Sample regular later event used by witnesses. -/
def wRowB : Row := ⟨36600, 40200, "B", "", "1", "", false⟩

/-- Boolean sortedness by `start` (adjacent pairs nondecreasing). -/
def sortedB : List Row → Bool
  | a :: b :: t => decide (a.start ≤ b.start) && sortedB (b :: t)
  | _ => true

/-- Boolean test that the first token list is a prefix of the second. -/
def tokPre : List String → List String → Bool
  | [], _ => true
  | _ :: _, [] => false
  | a :: as, b :: bs => a == b && tokPre as bs

/-- Boolean strict sortedness by `start` (adjacent pairs increasing: no two
records share a start instant and the list is in ascending start order). -/
def ascB : List Row → Bool
  | a :: b :: t => decide (a.start < b.start) && ascB (b :: t)
  | _ => true

/-- The display title of a merged run: common token prefix of the stripped
resolved titles, falling back to the first stripped title when empty. -/
def mergedTitle (rs : List Row) : String :=
  let descs := rs.map (fun x => pyStrip (bestTitle x))
  let cp := commonPre (descs.map tokensOf)
  if cp.isEmpty then descs.headD "" else String.intercalate " " cp

/-- Two same-start rows whose merge happens to equal the first row. -/
def cxA : Row := ⟨100, 600, "X", "X", "1", "", false⟩

/-- Partner row for the C6 counterexample. -/
def cxB : Row := ⟨100, 700, "Y", "", "1", "", false⟩

/-- First row of the specification's merge-prefix example. -/
def tmA : Row := ⟨100, 200, "Team A Practice", "", "1", "", false⟩

/-- Second row of the specification's merge-prefix example. -/
def tmB : Row := ⟨100, 300, "Team A Scrimmage", "", "1", "", false⟩

/-- Two overlapping regular events both containing the reference instant. -/
def ovA : Row := ⟨100, 400, "A", "", "1", "", false⟩

/-- Second overlapping regular event for the C1 counterexample. -/
def ovB : Row := ⟨200, 500, "B", "", "2", "", false⟩

/-- Past event for the C1 witness (already over at instant 300). -/
def pstA : Row := ⟨100, 200, "A", "", "1", "", false⟩

/-- Upcoming event for the C1 witness. -/
def futB : Row := ⟨400, 500, "B", "", "1", "", false⟩

/-- Value of a hex digit with default 0 (total helper for statements). -/
def hv (c : Char) : Nat := (hexDigitVal c).getD 0

/-- A rink row with both timestamps parseable. -/
def goodRink : RawRow := ⟨some 32400, some 36000, "Good", "", "1", "", false, ""⟩

/-- A rink row whose `start` fails `parse_datetime` (a `ValueError`). -/
def badRink : RawRow := ⟨none, some 37000, "Bad", "", "1", "", false, ""⟩

/-- Length of `dropWhile` never exceeds the length of the input. -/
theorem len_dropWhile_le (p : α → Bool) (l : List α) :
    (l.dropWhile p).length ≤ l.length := by
  induction l with
  | nil => simp [List.dropWhile]
  | cons a t ih =>
    simp only [List.dropWhile]
    cases p a
    · simp
    · simp; omega

theorem chPre_iff (n : List Char) : ∀ h : List Char,
    chPre n h = true ↔ ∃ t, h = n ++ t := by
  induction n with
  | nil => intro h; simp [chPre]
  | cons a as ih =>
    intro h
    cases h with
    | nil => simp [chPre]
    | cons b bs =>
      simp only [chPre, Bool.and_eq_true, beq_iff_eq, ih bs, List.cons_append,
        List.cons.injEq]
      constructor
      · rintro ⟨rfl, t, rfl⟩; exact ⟨t, rfl, rfl⟩
      · rintro ⟨t, rfl, rfl⟩; exact ⟨rfl, t, rfl⟩

theorem subOf_iff (n : List Char) : ∀ h : List Char,
    subOf n h = true ↔ ∃ p q, h = p ++ n ++ q := by
  intro h
  induction h with
  | nil =>
    simp only [subOf, chPre_iff]
    constructor
    · rintro ⟨t, ht⟩
      refine ⟨[], t, ht⟩
    · rintro ⟨p, q, hpq⟩
      have hp : p = [] := by
        cases p with
        | nil => rfl
        | cons x xs => simp at hpq
      subst hp
      exact ⟨q, hpq⟩
  | cons c rest ih =>
    simp only [subOf, Bool.or_eq_true, chPre_iff, ih]
    constructor
    · rintro (⟨t, ht⟩ | ⟨p, q, hpq⟩)
      · exact ⟨[], t, by simpa using ht⟩
      · exact ⟨c :: p, q, by simp [hpq]⟩
    · rintro ⟨p, q, hpq⟩
      cases p with
      | nil => exact Or.inl ⟨q, by simpa using hpq⟩
      | cons x xs =>
        simp only [List.cons_append, List.cons.injEq] at hpq
        exact Or.inr ⟨xs, q, hpq.2⟩

/-- C9.  An event is classified maintenance (`is_ice_cut` in
`generate_html`) exactly when it is synthetic, or its lower-cased resolved
title contains one of the fixed keywords and its whole-minute duration is at
most 20 — the keyword-plus-threshold rule of the specification. -/
theorem c9_maintenance_classification (r : Row) :
    isIceCut r = true ↔ specMaintenance r := by
  unfold isIceCut isRealIceCut specMaintenance kwSub
  simp only [Bool.or_eq_true, Bool.and_eq_true, List.any_eq_true,
    decide_eq_true_eq, subOf_iff]

theorem synthScan_eq_zip (l : List Row) :
    synthScan l = (l.zip l.tail).filterMap (fun p => synthPair p.1 p.2) := by
  induction l with
  | nil => simp [synthScan]
  | cons c t ih =>
    cases t with
    | nil => simp [synthScan]
    | cons n rest =>
      have e1 : synthScan (c :: n :: rest) =
          (if 300 < n.start - c.stop ∧ n.start - c.stop ≤ 600
           then [mkSynth c.stop (n.start - c.stop)] else []) ++ synthScan (n :: rest) :=
        rfl
      have e2 : (c :: n :: rest).zip (c :: n :: rest).tail =
          (c, n) :: ((n :: rest).zip (n :: rest).tail) := rfl
      rw [e1, ih, e2, List.filterMap_cons]
      by_cases h : 300 < n.start - c.stop ∧ n.start - c.stop ≤ 600
      · rw [if_pos h]
        have e3 : synthPair (c, n).1 (c, n).2 = some (mkSynth c.stop (n.start - c.stop)) := by
          unfold synthPair; rw [if_pos h]
        rw [e3]
        rfl
      · rw [if_neg h]
        have e3 : synthPair (c, n).1 (c, n).2 = none := by
          unfold synthPair; rw [if_neg h]
        rw [e3]
        rfl

/-- C3.  The gap synthesizer emits exactly one synthetic maintenance record
per adjacent pair of the start-sorted rink rows whose gap (seconds) lies in
the band `300 < gap ≤ 600` (that is, `5 < gap ≤ 10` minutes), with
`start = current.end` and `end = current.end + gap`; out-of-band gaps and
non-adjacent pairs produce nothing.  The boundary rows realise the
specification's 5:00 / 5:01 / 10:00 / 10:01 examples (end of the current
booking at 10:00, i.e. second 36000). -/
theorem c3_gap_synthesizer_spec :
    (∀ rows : List Row,
      buildSyntheticIcecuts rows =
        ((sortByStart (rows.filter (fun r => r.resource_id == "1"))).zip
            (sortByStart (rows.filter (fun r => r.resource_id == "1"))).tail).filterMap
          (fun p => synthPair p.1 p.2))
    ∧ (∀ c n : Row,
        (300 < n.start - c.stop ∧ n.start - c.stop ≤ 600 →
          synthPair c n = some ⟨c.stop, c.stop + (n.start - c.stop), "", "ICE CUT?",
            "1", "#999999", true⟩)
        ∧ (n.start - c.stop ≤ 300 ∨ 600 < n.start - c.stop → synthPair c n = none))
    ∧ buildSyntheticIcecuts
        [⟨32400, 36000, "A", "", "1", "", false⟩,
         ⟨36300, 39900, "B", "", "1", "", false⟩] = []
    ∧ buildSyntheticIcecuts
        [⟨32400, 36000, "A", "", "1", "", false⟩,
         ⟨36301, 39901, "B", "", "1", "", false⟩] = [mkSynth 36000 301]
    ∧ buildSyntheticIcecuts
        [⟨32400, 36000, "A", "", "1", "", false⟩,
         ⟨36600, 40200, "B", "", "1", "", false⟩] = [mkSynth 36000 600]
    ∧ buildSyntheticIcecuts
        [⟨32400, 36000, "A", "", "1", "", false⟩,
         ⟨36601, 40201, "B", "", "1", "", false⟩] = [] := by
  refine ⟨?_, ?_, by decide, by decide, by decide, by decide⟩
  · intro rows
    exact synthScan_eq_zip _
  · intro c n
    constructor
    · intro h
      unfold synthPair
      rw [if_pos h]
      rfl
    · intro h
      have hn : ¬(300 < n.start - c.stop ∧ n.start - c.stop ≤ 600) := by omega
      unfold synthPair
      rw [if_neg hn]

theorem c3_gap_synthesizer_spec_witness :
    (300 < 36301 - 36000 ∧ 36301 - 36000 ≤ 600)
      ∧ synthPair ⟨32400, 36000, "A", "", "1", "", false⟩
          ⟨36301, 39901, "B", "", "1", "", false⟩
        = some ⟨36000, 36000 + (36301 - 36000), "", "ICE CUT?", "1", "#999999", true⟩ :=
  ⟨by decide,
   (c3_gap_synthesizer_spec.2.1 ⟨32400, 36000, "A", "", "1", "", false⟩
      ⟨36301, 39901, "B", "", "1", "", false⟩).1 (by decide)⟩

/-- C4 counterexample.  The color string `"#zzzzzz"` has the marker and a
valid length but non-hex digits: the claim requires `black`, but
`text_color` reaches `int("zz", 16)` and raises `ValueError` (modelled as
`none`), so it neither returns black nor degrades gracefully. -/
theorem c4_nonhex_counterexample :
    textColor "#zzzzzz" = none ∧ textColor "#zzzzzz" ≠ some "black" := by
  decide

/-- C4 amended.  The foreground-color function returns `black` whenever the
string is absent (empty), does not start with the marker `#`, or its total
length is not 4 or 7 (not 3 or 6 digits after a single marker); for such
strings it never raises.  (Strings passing this guard with non-hex digits
raise instead of degrading — see the counterexample.) -/
theorem c4_guard_black (s : String)
    (h : s.toList.head? ≠ some '#' ∨ (s.toList.length ≠ 4 ∧ s.toList.length ≠ 7)) :
    textColor s = some "black" := by
  have hg : colorGuard s.toList = true := by
    unfold colorGuard
    rcases h with h | ⟨h1, h2⟩
    · have e : (s.toList.head? == some '#') = false := by
        simpa using h
      rw [e]
      simp
    · have e4 : (s.toList.length == 4) = false := by simpa using h1
      have e7 : (s.toList.length == 7) = false := by simpa using h2
      rw [e4, e7]
      simp
  have hg' : colorGuard s.data = true := hg
  simp [textColor, hg']

theorem c4_guard_black_witness :
    ("blue".toList.head? ≠ some '#'
      ∨ ("blue".toList.length ≠ 4 ∧ "blue".toList.length ≠ 7))
      ∧ textColor "blue" = some "black" :=
  ⟨Or.inl (by decide), c4_guard_black "blue" (Or.inl (by decide))⟩

theorem currentCond_of_iceCut {now : Nat} {r : Row} (h : isIceCut r = true) :
    currentCond now r = false := by
  unfold currentCond
  rw [h]
  simp

theorem futureCond_of_iceCut {now : Nat} {r : Row} (h : isIceCut r = true) :
    futureCond now r = false := by
  unfold futureCond
  rw [h]
  simp

theorem nowMarksAux_iceCut_getElem (now : Nat) :
    ∀ (l : List Row) (f : Bool) (i : Nat) (r : Row),
      l[i]? = some r → isIceCut r = true → (nowMarksAux now f l)[i]? = some false := by
  intro l
  induction l with
  | nil => intro f i r h; simp at h
  | cons x rs ih =>
    intro f i r h hice
    cases i with
    | zero =>
      simp at h
      subst h
      rw [nowMarksAux, currentCond_of_iceCut hice, futureCond_of_iceCut hice]
      simp
    | succ j =>
      simp only [List.getElem?_cons_succ] at h
      rw [nowMarksAux]
      by_cases hc : currentCond now x = true
      · rw [if_pos hc]
        simpa using ih true j r h hice
      · rw [if_neg hc]
        by_cases hf : (!f && futureCond now x) = true
        · rw [if_pos hf]
          simpa using ih true j r h hice
        · rw [if_neg hf]
          simpa using ih f j r h hice

theorem nowMarksAux_insert_iceCut (now : Nat) (m : Row) (hice : isIceCut m = true) :
    ∀ (l₁ : List Row) (f : Bool) (l₂ : List Row),
      nowMarksAux now f (l₁ ++ m :: l₂) =
        (nowMarksAux now f (l₁ ++ l₂)).take l₁.length
          ++ false :: (nowMarksAux now f (l₁ ++ l₂)).drop l₁.length := by
  intro l₁
  induction l₁ with
  | nil =>
    intro f l₂
    simp only [List.nil_append, List.length_nil, List.take_zero, List.drop_zero]
    rw [nowMarksAux, currentCond_of_iceCut hice, futureCond_of_iceCut hice]
    simp
  | cons x t ih =>
    intro f l₂
    simp only [List.cons_append, List.length_cons]
    rw [nowMarksAux, nowMarksAux]
    by_cases hc : currentCond now x = true
    · rw [if_pos hc, if_pos hc, ih true l₂]
      simp
    · rw [if_neg hc, if_neg hc]
      by_cases hf : (!f && futureCond now x) = true
      · rw [if_pos hf, if_pos hf, ih true l₂]
        simp
      · rw [if_neg hf, if_neg hf, ih f l₂]
        simp

/-- C2.  No event classified maintenance is ever marked by the NOW loop of
`generate_html`: (i) at every position holding a maintenance event the
emitted mark is `false`, whatever the reference instant, list and incoming
flag state; (ii) a maintenance event anywhere in the list is skipped
silently — the marks of all other rows are exactly those of the list with
the maintenance event removed, so the selector marks the next eligible
regular event, or nothing when none exists. -/
theorem c2_maintenance_excluded :
    (∀ (now : Nat) (l : List Row) (i : Nat) (r : Row),
      l[i]? = some r → isIceCut r = true → (nowMarks now l)[i]? = some false)
    ∧ (∀ (now : Nat) (l₁ l₂ : List Row) (m : Row), isIceCut m = true →
      nowMarks now (l₁ ++ m :: l₂) =
        (nowMarks now (l₁ ++ l₂)).take l₁.length
          ++ false :: (nowMarks now (l₁ ++ l₂)).drop l₁.length) := by
  constructor
  · intro now l i r h hice
    exact nowMarksAux_iceCut_getElem now l false i r h hice
  · intro now l₁ l₂ m hice
    exact nowMarksAux_insert_iceCut now m hice l₁ false l₂

theorem sortedB_tail {a : Row} {l : List Row} (h : sortedB (a :: l) = true) :
    sortedB l = true := by
  cases l with
  | nil => rfl
  | cons b t =>
    rw [sortedB, Bool.and_eq_true] at h
    exact h.2

theorem sortedB_head_le {a : Row} {l : List Row} (h : sortedB (a :: l) = true) :
    ∀ x ∈ l, a.start ≤ x.start := by
  induction l generalizing a with
  | nil => intro x hx; simp at hx
  | cons b t ih =>
    intro x hx
    rw [sortedB, Bool.and_eq_true, decide_eq_true_eq] at h
    rcases List.mem_cons.mp hx with rfl | hx'
    · exact h.1
    · exact le_trans h.1 (ih h.2 x hx')

theorem insertByStart_sortedB (r : Row) :
    ∀ l : List Row, sortedB l = true → sortedB (insertByStart r l) = true := by
  intro l
  induction l with
  | nil => intro _; rfl
  | cons x xs ih =>
    intro h
    by_cases hx : x.start < r.start
    · rw [insertByStart, if_pos hx]
      cases xs with
      | nil =>
        rw [insertByStart]
        rw [sortedB]
        simp [sortedB]
        omega
      | cons y ys =>
        rw [sortedB, Bool.and_eq_true, decide_eq_true_eq] at h
        have h' := ih h.2
        by_cases hy : y.start < r.start
        · rw [insertByStart, if_pos hy] at h' ⊢
          rw [sortedB, Bool.and_eq_true, decide_eq_true_eq]
          exact ⟨h.1, h'⟩
        · rw [insertByStart, if_neg hy] at h' ⊢
          rw [sortedB, Bool.and_eq_true, decide_eq_true_eq]
          constructor
          · omega
          · exact h'
    · rw [insertByStart, if_neg hx]
      rw [sortedB, Bool.and_eq_true, decide_eq_true_eq]
      constructor
      · omega
      · exact h

theorem sortByStart_sortedB (l : List Row) : sortedB (sortByStart l) = true := by
  induction l with
  | nil => rfl
  | cons a t ih => exact insertByStart_sortedB a _ ih

theorem sortByStart_of_sortedB : ∀ l : List Row, sortedB l = true → sortByStart l = l := by
  intro l
  induction l with
  | nil => intro _; rfl
  | cons a t ih =>
    intro h
    have e : sortByStart (a :: t) = insertByStart a (sortByStart t) := rfl
    rw [e, ih (sortedB_tail h)]
    cases t with
    | nil => rfl
    | cons x xs =>
      rw [sortedB, Bool.and_eq_true, decide_eq_true_eq] at h
      rw [insertByStart, if_neg (by omega)]

theorem insertByStart_countP (p : Row → Bool) (r : Row) :
    ∀ l : List Row, (insertByStart r l).countP p =
      l.countP p + (if p r then 1 else 0) := by
  intro l
  induction l with
  | nil => simp [insertByStart, List.countP_cons]
  | cons x xs ih =>
    by_cases hx : x.start < r.start
    · rw [insertByStart, if_pos hx]
      simp only [List.countP_cons, ih]
      omega
    · rw [insertByStart, if_neg hx]
      simp only [List.countP_cons]

theorem sortByStart_countP (p : Row → Bool) (l : List Row) :
    (sortByStart l).countP p = l.countP p := by
  induction l with
  | nil => rfl
  | cons a t ih =>
    have e : sortByStart (a :: t) = insertByStart a (sortByStart t) := rfl
    rw [e, insertByStart_countP, ih, List.countP_cons]

theorem nowMarksAux_no_current (now : Nat) :
    ∀ l : List Row, (∀ r ∈ l, currentCond now r = false) →
      nowMarksAux now true l = l.map (fun _ => false) := by
  intro l
  induction l with
  | nil => intro _; rfl
  | cons x rs ih =>
    intro h
    rw [nowMarksAux, h x (List.mem_cons_self x rs)]
    simp only [Bool.not_true, Bool.false_and, Bool.false_eq_true, if_false,
      List.map_cons]
    rw [ih (fun r hr => h r (List.mem_cons_of_mem x hr))]

theorem nowMarks_eq_specSelect (now : Nat) :
    ∀ l : List Row, sortedB l = true →
      l.countP (fun r => currentCond now r) ≤ 1 →
      nowMarksAux now false l = specSelect now l := by
  intro l
  induction l with
  | nil => intro _ _; rfl
  | cons r rs ih =>
    intro hs hc
    cases h1 : currentCond now r with
    | true =>
      rw [nowMarksAux, if_pos h1, specSelect, if_pos (by rw [h1]; rfl)]
      have hz : rs.countP (fun x => currentCond now x) = 0 := by
        rw [List.countP_cons] at hc
        simp only [h1, if_true] at hc
        omega
      have hnone : ∀ x ∈ rs, currentCond now x = false := by
        intro x hx
        have := List.countP_eq_zero.mp hz x hx
        simpa using this
      rw [nowMarksAux_no_current now rs hnone]
    | false =>
      cases h2 : futureCond now r with
      | true =>
        rw [nowMarksAux, if_neg (by rw [h1]; exact Bool.false_ne_true),
          if_pos (by rw [h2]; rfl),
          specSelect, if_pos (by rw [h2, Bool.or_true])]
        have hnow : now < r.start := by
          unfold futureCond at h2
          rw [Bool.and_eq_true, Bool.and_eq_true] at h2
          exact of_decide_eq_true h2.1.2
        have hnone : ∀ x ∈ rs, currentCond now x = false := by
          intro x hx
          have hle : r.start ≤ x.start := sortedB_head_le hs x hx
          unfold currentCond
          have hd : decide (x.start ≤ now) = false := by
            rw [decide_eq_false_iff_not]
            omega
          rw [hd]
          simp
        rw [nowMarksAux_no_current now rs hnone]
      | false =>
        rw [nowMarksAux, if_neg (by rw [h1]; exact Bool.false_ne_true),
          if_neg (by rw [h2]; simp),
          specSelect, if_neg (by rw [h1, h2]; simp)]
        have hc' : rs.countP (fun x => currentCond now x) ≤ 1 := by
          rw [List.countP_cons] at hc
          omega
        rw [ih (sortedB_tail hs) hc']

theorem specSelect_count_le_one (now : Nat) :
    ∀ l : List Row, (specSelect now l).count true ≤ 1 := by
  intro l
  induction l with
  | nil => simp [specSelect]
  | cons r rs ih =>
    rw [specSelect]
    cases h : (currentCond now r || futureCond now r) with
    | true =>
      simp [List.count_cons, List.count_replicate]
    | false =>
      rw [if_neg Bool.false_ne_true]
      simpa [List.count_cons] using ih

theorem displayMarksAux_eq_filter (now : Nat) :
    ∀ (l : List Row) (f : Bool),
      displayMarksAux now f l = nowMarksAux now f (l.filter (displayKeep now)) := by
  intro l
  induction l with
  | nil => intro f; rfl
  | cons r rs ih =>
    intro f
    cases h1 : decide (r.stop < now) with
    | true =>
      rw [displayMarksAux, if_pos h1]
      have hk : displayKeep now r = false := by
        unfold displayKeep
        rw [h1]
        rfl
      rw [List.filter_cons_of_neg (by rw [hk]; exact Bool.false_ne_true)]
      exact ih f
    | false =>
      cases h2 : (dayOf r.start == dayOf now) with
      | true =>
        have hk : displayKeep now r = true := by
          unfold displayKeep
          rw [h1, h2]
          rfl
        have hcur : currentCond now r = dCur now r := by
          unfold currentCond dCur
          rw [h2]
          simp [Bool.and_assoc]
        have hfut : futureCond now r = dFut now r := by
          unfold futureCond dFut
          rw [h2]
          simp
        rw [displayMarksAux]
        rw [h1, h2]
        rw [List.filter_cons_of_pos hk, nowMarksAux, hcur, hfut]
        simp only [decide_False, Bool.false_eq_true, if_false, Bool.not_true,
          Bool.false_ne_true, reduceIte]
        cases h3 : dCur now r with
        | true =>
          simp only [reduceIte]
          rw [ih true]
        | false =>
          simp only [Bool.false_eq_true, reduceIte]
          cases h4 : (!f && dFut now r) with
          | true =>
            simp only [reduceIte]
            rw [ih true]
          | false =>
            simp only [Bool.false_eq_true, reduceIte]
            rw [ih f]
      | false =>
        rw [displayMarksAux]
        rw [h1, h2]
        simp only [Bool.false_eq_true, if_false, Bool.not_false, if_true, reduceIte]
        have hk : displayKeep now r = false := by
          unfold displayKeep
          rw [h2]
          simp
        rw [List.filter_cons_of_neg (by rw [hk]; exact Bool.false_ne_true)]
        exact ih f

theorem stepTails_nil_eq (w : String) : stepTails w [] = some [] := rfl

theorem stepTails_nilHead (w : String) (rest : List (List String)) :
    stepTails w ([] :: rest) = none := rfl

theorem stepTails_consHead (w x : String) (xs : List String)
    (rest : List (List String)) :
    stepTails w ((x :: xs) :: rest) =
      if x == w then (stepTails w rest).map (fun ts => xs :: ts) else none := rfl

theorem stepTails_some {w : String} :
    ∀ {os ts : List (List String)}, stepTails w os = some ts →
      os = ts.map (fun t => w :: t) := by
  intro os
  induction os with
  | nil =>
    intro ts h
    rw [stepTails_nil_eq] at h
    cases h
    rfl
  | cons o rest ih =>
    intro ts h
    cases o with
    | nil => rw [stepTails_nilHead] at h; cases h
    | cons x xs =>
      rw [stepTails_consHead] at h
      by_cases hx : (x == w) = true
      · rw [if_pos hx] at h
        cases hrec : stepTails w rest with
        | none => rw [hrec] at h; cases h
        | some ts' =>
          rw [hrec] at h
          simp only [Option.map_some'] at h
          injection h with h2
          subst h2
          rw [ih hrec]
          simp [eq_of_beq hx]
      · rw [if_neg hx] at h
        cases h

theorem stepTails_of_map (w : String) :
    ∀ ts : List (List String), stepTails w (ts.map (fun t => w :: t)) = some ts := by
  intro ts
  induction ts with
  | nil => rfl
  | cons t rest ih =>
    simp only [List.map_cons]
    rw [stepTails, if_pos (beq_self_eq_true w), ih]
    rfl

theorem tokPre_lcpWith_self :
    ∀ (f : List String) (os : List (List String)), tokPre (lcpWith f os) f = true := by
  intro f
  induction f with
  | nil => intro os; rfl
  | cons w ws ih =>
    intro os
    rw [lcpWith]
    cases h : stepTails w os with
    | none => rfl
    | some ts =>
      rw [tokPre, Bool.and_eq_true]
      exact ⟨beq_self_eq_true w, ih ts⟩

theorem tokPre_lcpWith_mem :
    ∀ (f : List String) (os : List (List String)) (t : List String), t ∈ os →
      tokPre (lcpWith f os) t = true := by
  intro f
  induction f with
  | nil => intro os t _; rfl
  | cons w ws ih =>
    intro os t ht
    rw [lcpWith]
    cases h : stepTails w os with
    | none => rfl
    | some ts =>
      have hos := stepTails_some h
      subst hos
      rcases List.mem_map.mp ht with ⟨t', ht', rfl⟩
      rw [tokPre, Bool.and_eq_true]
      exact ⟨beq_self_eq_true w, ih ts t' ht'⟩

theorem tokPre_length_le_lcpWith :
    ∀ (p f : List String) (os : List (List String)),
      tokPre p f = true → (∀ t ∈ os, tokPre p t = true) →
      p.length ≤ (lcpWith f os).length := by
  intro p
  induction p with
  | nil => intro f os _ _; simp
  | cons a ps ih =>
    intro f os hf hos
    cases f with
    | nil => simp [tokPre] at hf
    | cons w ws =>
      rw [tokPre, Bool.and_eq_true] at hf
      have haw : a = w := eq_of_beq hf.1
      subst haw
      have hts : ∀ t ∈ os, ∃ t', t = a :: t' ∧ tokPre ps t' = true := by
        intro t ht
        cases t with
        | nil =>
          have h0 := hos [] ht
          simp [tokPre] at h0
        | cons b bs =>
          have hb := hos (b :: bs) ht
          rw [tokPre, Bool.and_eq_true] at hb
          exact ⟨bs, by rw [eq_of_beq hb.1], hb.2⟩
      have hmap : os = (os.map (fun t => t.tail)).map (fun t => a :: t) := by
        rw [List.map_map]
        conv_lhs => rw [← List.map_id os]
        refine List.map_congr_left ?_
        intro t ht
        rcases hts t ht with ⟨t', rfl, _⟩
        rfl
      rw [lcpWith, hmap, stepTails_of_map]
      rw [List.length_cons, List.length_cons]
      have : ∀ t' ∈ os.map (fun t => t.tail), tokPre ps t' = true := by
        intro t' ht'
        rcases List.mem_map.mp ht' with ⟨t, ht, rfl⟩
        rcases hts t ht with ⟨t'', heq, hp⟩
        rw [heq]
        exact hp
      exact Nat.succ_le_succ (ih ws _ hf.2 this)

theorem takeWhile_of_all (p : α → Bool) :
    ∀ l : List α, (∀ x ∈ l, p x = true) → l.takeWhile p = l := by
  intro l
  induction l with
  | nil => intro _; rfl
  | cons a t ih =>
    intro h
    rw [List.takeWhile_cons, if_pos (h a (List.mem_cons_self a t)),
      ih (fun x hx => h x (List.mem_cons_of_mem a hx))]

theorem dropWhile_of_all (p : α → Bool) :
    ∀ l : List α, (∀ x ∈ l, p x = true) → l.dropWhile p = [] := by
  intro l
  induction l with
  | nil => intro _; rfl
  | cons a t ih =>
    intro h
    rw [List.dropWhile_cons_of_pos (h a (List.mem_cons_self a t)),
      ih (fun x hx => h x (List.mem_cons_of_mem a hx))]

theorem takeWhile_append_absorb (p : α → Bool) :
    ∀ (t l₂ : List α), (∀ y ∈ l₂, p y = false) →
      (t ++ l₂).takeWhile p = t.takeWhile p := by
  intro t
  induction t with
  | nil =>
    intro l₂ h
    cases l₂ with
    | nil => rfl
    | cons y ys =>
      simp only [List.nil_append, List.takeWhile_nil]
      rw [List.takeWhile_cons, if_neg]
      rw [h y (List.mem_cons_self y ys)]
      exact Bool.false_ne_true
  | cons u t' ih =>
    intro l₂ h
    rw [List.cons_append, List.takeWhile_cons, List.takeWhile_cons]
    cases hu : p u with
    | true => rw [ih l₂ h]
    | false => simp

theorem dropWhile_append_absorb (p : α → Bool) :
    ∀ (t l₂ : List α), (∀ y ∈ l₂, p y = false) →
      (t ++ l₂).dropWhile p = t.dropWhile p ++ l₂ := by
  intro t
  induction t with
  | nil =>
    intro l₂ h
    cases l₂ with
    | nil => rfl
    | cons y ys =>
      simp only [List.nil_append, List.dropWhile_nil]
      rw [List.dropWhile_cons_of_neg]
      rw [h y (List.mem_cons_self y ys)]
      exact Bool.false_ne_true
  | cons u t' ih =>
    intro l₂ h
    rw [List.cons_append, List.dropWhile_cons, List.dropWhile_cons]
    cases hu : p u with
    | true => rw [ih l₂ h]; simp
    | false => simp

theorem mem_of_mem_dropWhile (p : α → Bool) :
    ∀ (l : List α) (x : α), x ∈ l.dropWhile p → x ∈ l := by
  intro l
  induction l with
  | nil => intro x h; simp at h
  | cons a t ih =>
    intro x h
    rw [List.dropWhile_cons] at h
    cases hp : p a with
    | true =>
      rw [hp] at h
      simp only [if_true] at h
      exact List.mem_cons_of_mem a (ih x h)
    | false =>
      rw [hp] at h
      simp only [Bool.false_eq_true, if_false] at h
      exact h

theorem dropWhile_head_false (p : α → Bool) :
    ∀ (l : List α) (y : α) (ys : List α), l.dropWhile p = y :: ys → p y = false := by
  intro l
  induction l with
  | nil => intro y ys h; cases h
  | cons a t ih =>
    intro y ys h
    rw [List.dropWhile_cons] at h
    cases hp : p a with
    | true =>
      rw [hp] at h
      simp only [if_true] at h
      exact ih y ys h
    | false =>
      rw [hp] at h
      simp only [Bool.false_eq_true, if_false] at h
      cases h
      exact hp

theorem sortedB_dropWhile (p : Row → Bool) :
    ∀ l : List Row, sortedB l = true → sortedB (l.dropWhile p) = true := by
  intro l
  induction l with
  | nil => intro _; rfl
  | cons a t ih =>
    intro h
    rw [List.dropWhile_cons]
    cases hp : p a with
    | true => simp only [if_true]; exact ih (sortedB_tail h)
    | false => simpa using h

/-- The derived record keeps the first member's start instant. -/
theorem emitRun_start (cur : Row) (grp : List Row) :
    (emitRun cur grp).start = cur.start := by
  unfold emitRun mergeGroup
  cases grp.isEmpty <;> rfl

theorem mergeRunsAcc_peel :
    ∀ (rest : List Row) (cur : Row) (grp : List Row),
      mergeRunsAcc cur grp rest =
        emitRun cur (grp ++ rest.takeWhile (fun x => x.start == cur.start))
          :: mergeRuns (rest.dropWhile (fun x => x.start == cur.start)) := by
  intro rest
  induction rest with
  | nil =>
    intro cur grp
    simp [mergeRunsAcc, mergeRuns]
  | cons r t ih =>
    intro cur grp
    rw [mergeRunsAcc]
    cases hr : (r.start == cur.start) with
    | true =>
      simp only [reduceIte]
      rw [ih cur (grp ++ [r]), List.takeWhile_cons, List.dropWhile_cons, hr]
      simp [List.append_assoc]
    | false =>
      simp only [Bool.false_eq_true, reduceIte]
      rw [List.takeWhile_cons, List.dropWhile_cons, hr]
      simp only [Bool.false_eq_true, if_false, List.append_nil]
      rfl

theorem mergeRuns_cons (r : Row) (rest : List Row) :
    mergeRuns (r :: rest) =
      emitRun r (rest.takeWhile (fun x => x.start == r.start))
        :: mergeRuns (rest.dropWhile (fun x => x.start == r.start)) := by
  have e : mergeRuns (r :: rest) = mergeRunsAcc r [] rest := rfl
  rw [e, mergeRunsAcc_peel]
  simp

theorem ascB_tail {a : Row} {l : List Row} (h : ascB (a :: l) = true) :
    ascB l = true := by
  cases l with
  | nil => rfl
  | cons b t =>
    rw [ascB, Bool.and_eq_true] at h
    exact h.2

theorem ascB_head_lt {a : Row} {l : List Row} (h : ascB (a :: l) = true) :
    ∀ x ∈ l, a.start < x.start := by
  induction l generalizing a with
  | nil => intro x hx; simp at hx
  | cons b t ih =>
    intro x hx
    rw [ascB, Bool.and_eq_true, decide_eq_true_eq] at h
    rcases List.mem_cons.mp hx with rfl | hx'
    · exact h.1
    · exact lt_trans h.1 (ih h.2 x hx')

theorem ascB_sortedB : ∀ l : List Row, ascB l = true → sortedB l = true := by
  intro l
  induction l with
  | nil => intro _; rfl
  | cons a t ih =>
    intro h
    cases t with
    | nil => rfl
    | cons b t2 =>
      rw [ascB, Bool.and_eq_true, decide_eq_true_eq] at h
      rw [sortedB, Bool.and_eq_true, decide_eq_true_eq]
      exact ⟨le_of_lt h.1, ih h.2⟩

theorem ascB_pairwise : ∀ l : List Row,
    ascB l = true → List.Pairwise (fun a b => a.start < b.start) l := by
  intro l
  induction l with
  | nil => intro _; exact List.Pairwise.nil
  | cons a t ih =>
    intro h
    exact List.Pairwise.cons (ascB_head_lt h) (ih (ascB_tail h))

theorem ascB_cons_cons {x y : Row} {t : List Row}
    (h1 : x.start < y.start) (h2 : ascB (y :: t) = true) :
    ascB (x :: y :: t) = true := by
  have e : ascB (x :: y :: t) = (decide (x.start < y.start) && ascB (y :: t)) := rfl
  rw [e, h2, decide_eq_true h1]
  rfl

theorem mergeRuns_ascB_fuel :
    ∀ (n : Nat) (l : List Row), l.length ≤ n → sortedB l = true →
      ascB (mergeRuns l) = true := by
  intro n
  induction n with
  | zero =>
    intro l hl _
    have : l = [] := List.eq_nil_of_length_eq_zero (Nat.le_zero.mp hl)
    subst this
    rfl
  | succ n ih =>
    intro l hl hs
    cases l with
    | nil => rfl
    | cons r t =>
      rw [mergeRuns_cons]
      cases hd : t.dropWhile (fun x => x.start == r.start) with
      | nil => rfl
      | cons y ys =>
        have hymem : y ∈ t := mem_of_mem_dropWhile _ t y (by rw [hd]; exact List.mem_cons_self y ys)
        have hyne : (y.start == r.start) = false := dropWhile_head_false _ t y ys hd
        have hylt : r.start < y.start := by
          have hle := sortedB_head_le hs y hymem
          have : y.start ≠ r.start := by simpa using hyne
          omega
        have hsort' : sortedB (y :: ys) = true := by
          rw [← hd]
          exact sortedB_dropWhile _ t (sortedB_tail hs)
        have hlen : (y :: ys).length ≤ n := by
          have h1 := len_dropWhile_le (fun x => x.start == r.start) t
          rw [hd] at h1
          simp only [List.length_cons] at hl h1 ⊢
          omega
        have h2 := ih (y :: ys) hlen hsort'
        rw [mergeRuns_cons] at h2 ⊢
        refine ascB_cons_cons ?_ h2
        rw [emitRun_start, emitRun_start]
        exact hylt

/-- The merged output of a sorted list has pairwise distinct, increasing
start instants. -/
theorem mergeConcurrent_ascB (l : List Row) :
    ascB (mergeConcurrentEvents l) = true :=
  mergeRuns_ascB_fuel (sortByStart l).length (sortByStart l) le_rfl
    (sortByStart_sortedB l)

theorem mergeRuns_of_ascB : ∀ l : List Row, ascB l = true → mergeRuns l = l := by
  intro l
  induction l with
  | nil => intro _; rfl
  | cons r rest ih =>
    intro h
    rw [mergeRuns_cons]
    cases rest with
    | nil => rfl
    | cons y ys =>
      have hlt : r.start < y.start := by
        rw [ascB, Bool.and_eq_true, decide_eq_true_eq] at h
        exact h.1
      have hne : (y.start == r.start) = false := by
        rw [beq_eq_false_iff_ne]
        omega
      rw [List.takeWhile_cons, List.dropWhile_cons, hne]
      simp only [Bool.false_eq_true, if_false]
      rw [ih (ascB_tail h)]
      rfl

/-- C10.  The output of the Concurrent-Start Merger has pairwise distinct
start instants in ascending order, and the merger is idempotent: applying it
to its own output returns the output unchanged. -/
theorem c10_merge_idempotent (l : List Row) :
    List.Pairwise (fun a b => a.start < b.start) (mergeConcurrentEvents l)
      ∧ mergeConcurrentEvents (mergeConcurrentEvents l) = mergeConcurrentEvents l := by
  have hM : ascB (mergeConcurrentEvents l) = true := mergeConcurrent_ascB l
  constructor
  · exact ascB_pairwise _ hM
  · have h1 : sortByStart (mergeConcurrentEvents l) = mergeConcurrentEvents l :=
      sortByStart_of_sortedB _ (ascB_sortedB _ hM)
    show mergeRuns (sortByStart (mergeConcurrentEvents l)) = mergeConcurrentEvents l
    rw [h1]
    exact mergeRuns_of_ascB _ hM

theorem sortedB_of_const :
    ∀ (l : List Row) (s : Nat), (∀ x ∈ l, x.start = s) → sortedB l = true := by
  intro l
  induction l with
  | nil => intro s _; rfl
  | cons a t ih =>
    intro s h
    cases t with
    | nil => rfl
    | cons b t2 =>
      rw [sortedB, Bool.and_eq_true, decide_eq_true_eq]
      constructor
      · rw [h a (List.mem_cons_self a _), h b (List.mem_cons_of_mem a (List.mem_cons_self b _))]
      · exact ih s (fun x hx => h x (List.mem_cons_of_mem a hx))

theorem sortedB_append :
    ∀ (l₁ l₂ : List Row), sortedB l₁ = true → sortedB l₂ = true →
      (∀ x ∈ l₁, ∀ y ∈ l₂, x.start < y.start) → sortedB (l₁ ++ l₂) = true := by
  intro l₁
  induction l₁ with
  | nil => intro l₂ _ h2 _; simpa using h2
  | cons a t ih =>
    intro l₂ h1 h2 hb
    rw [List.cons_append]
    cases t with
    | nil =>
      cases l₂ with
      | nil => rfl
      | cons y ys =>
        rw [List.nil_append, sortedB, Bool.and_eq_true, decide_eq_true_eq]
        constructor
        · exact le_of_lt (hb a (List.mem_cons_self a []) y (List.mem_cons_self y ys))
        · exact h2
    | cons b t2 =>
      have hrec : sortedB ((b :: t2) ++ l₂) = true := by
        refine ih l₂ (sortedB_tail h1) h2 ?_
        intro x hx y hy
        exact hb x (List.mem_cons_of_mem a hx) y hy
      rw [List.cons_append] at hrec ⊢
      rw [sortedB, Bool.and_eq_true, decide_eq_true_eq]
      constructor
      · rw [sortedB, Bool.and_eq_true, decide_eq_true_eq] at h1
        exact h1.1
      · exact hrec

theorem mergeRuns_append_fuel :
    ∀ (n : Nat) (l₁ l₂ : List Row), l₁.length ≤ n → sortedB l₁ = true →
      (∀ x ∈ l₁, ∀ y ∈ l₂, x.start < y.start) →
      mergeRuns (l₁ ++ l₂) = mergeRuns l₁ ++ mergeRuns l₂ := by
  intro n
  induction n with
  | zero =>
    intro l₁ l₂ hl _ _
    have : l₁ = [] := List.eq_nil_of_length_eq_zero (Nat.le_zero.mp hl)
    subst this
    rfl
  | succ n ih =>
    intro l₁ l₂ hl hs hb
    cases l₁ with
    | nil => rfl
    | cons r t =>
      have hfail : ∀ y ∈ l₂, (fun x : Row => x.start == r.start) y = false := by
        intro y hy
        have := hb r (List.mem_cons_self r t) y hy
        rw [beq_eq_false_iff_ne]
        omega
      rw [List.cons_append, mergeRuns_cons, mergeRuns_cons,
        takeWhile_append_absorb _ t l₂ hfail, dropWhile_append_absorb _ t l₂ hfail,
        List.cons_append]
      have htail := ih (t.dropWhile (fun x => x.start == r.start)) l₂
        (by have := len_dropWhile_le (fun x : Row => x.start == r.start) t
            simp only [List.length_cons] at hl
            omega)
        (sortedB_dropWhile _ t (sortedB_tail hs))
        (fun x hx y hy =>
          hb x (List.mem_cons_of_mem r (mem_of_mem_dropWhile _ t x hx)) y hy)
      rw [htail]

/-- First member's record with the computed merged title in both title
fields: what the Python merger builds for a run of size at least two. -/
theorem mergeGroup_eq_mergedTitle (cur : Row) (grp : List Row) :
    mergeGroup cur grp =
      { cur with desc := mergedTitle (cur :: grp), best_desc := mergedTitle (cur :: grp) } := rfl

/-- C6 counterexample.  The merger attaches no merge tag: merging the
two-element run `[cxA, cxB]` yields exactly the single record `cxA`, which
is also what merging the singleton `[cxA]` yields, so the number N of merged
originals is not recoverable from the output — the claim's "tagged as a
merge of N originals with N recoverable" fails on the code (the derived
record is a plain copy of the first member with only the title replaced). -/
theorem c6_no_merge_tag_counterexample :
    mergeConcurrentEvents [cxA, cxB] = [cxA]
      ∧ mergeConcurrentEvents [cxA] = [cxA]
      ∧ ([cxA, cxB] : List Row) ≠ [cxA] := by
  decide

/-- C6 amended.  The Concurrent-Start Merger: (i) passes lists with pairwise
distinct starts (all runs of size 1) through unchanged; (ii) collapses a run
of records sharing one start (size > 1) into the single derived record that
copies every field of the run's first member except the two title fields,
which receive the merged display title; (iii) that title is the longest
common whitespace-token prefix of the run's stripped resolved titles — a
common prefix of every tokenized title, and at least as long as any other
common token prefix — falling back to the first record's stripped title when
the common prefix is empty; (iv) on a sorted concatenation whose parts do
not share start instants, the merger acts independently on the parts, so
maximal runs are merged one by one.  (No merge-count tag exists; N is not
recoverable — see the counterexample.) -/
theorem c6_merger_amended :
    (∀ l : List Row, ascB l = true → mergeConcurrentEvents l = l)
    ∧ (∀ (r : Row) (rest : List Row), rest ≠ [] → (∀ x ∈ rest, x.start = r.start) →
        mergeConcurrentEvents (r :: rest) =
          [{ r with desc := mergedTitle (r :: rest), best_desc := mergedTitle (r :: rest) }])
    ∧ (∀ rs : List Row, rs ≠ [] →
        (∀ t ∈ (rs.map (fun x => pyStrip (bestTitle x))).map tokensOf,
          tokPre (commonPre ((rs.map (fun x => pyStrip (bestTitle x))).map tokensOf)) t = true)
        ∧ (∀ p : List String,
            (∀ t ∈ (rs.map (fun x => pyStrip (bestTitle x))).map tokensOf,
              tokPre p t = true) →
            p.length ≤ (commonPre ((rs.map (fun x => pyStrip (bestTitle x))).map tokensOf)).length)
        ∧ (commonPre ((rs.map (fun x => pyStrip (bestTitle x))).map tokensOf) = [] →
            mergedTitle rs = (rs.map (fun x => pyStrip (bestTitle x))).headD "")
        ∧ (commonPre ((rs.map (fun x => pyStrip (bestTitle x))).map tokensOf) ≠ [] →
            mergedTitle rs = String.intercalate " "
              (commonPre ((rs.map (fun x => pyStrip (bestTitle x))).map tokensOf))))
    ∧ (∀ l₁ l₂ : List Row, sortedB l₁ = true → sortedB l₂ = true →
        (∀ x ∈ l₁, ∀ y ∈ l₂, x.start < y.start) →
        mergeConcurrentEvents (l₁ ++ l₂) =
          mergeConcurrentEvents l₁ ++ mergeConcurrentEvents l₂) := by
  refine ⟨?_, ?_, ?_, ?_⟩
  · intro l h
    show mergeRuns (sortByStart l) = l
    rw [sortByStart_of_sortedB l (ascB_sortedB l h)]
    exact mergeRuns_of_ascB l h
  · intro r rest hne hsame
    have hsorted : sortedB (r :: rest) = true := by
      refine sortedB_of_const _ r.start ?_
      intro x hx
      rcases List.mem_cons.mp hx with rfl | hx'
      · rfl
      · exact hsame x hx'
    show mergeRuns (sortByStart (r :: rest)) = _
    rw [sortByStart_of_sortedB _ hsorted, mergeRuns_cons]
    have hall : ∀ x ∈ rest, (fun x : Row => x.start == r.start) x = true := by
      intro x hx
      rw [beq_iff_eq]
      exact hsame x hx
    rw [takeWhile_of_all _ rest hall, dropWhile_of_all _ rest hall]
    have hemit : emitRun r rest = mergeGroup r rest := by
      unfold emitRun
      rw [if_neg]
      rw [List.isEmpty_iff]
      exact hne
    rw [hemit, mergeGroup_eq_mergedTitle]
    rfl
  · intro rs hne
    have hmap : (rs.map (fun x => pyStrip (bestTitle x))).map tokensOf ≠ [] := by
      simp [hne]
    refine ⟨?_, ?_, ?_, ?_⟩
    · intro t ht
      cases hm : (rs.map (fun x => pyStrip (bestTitle x))).map tokensOf with
      | nil => rw [hm] at ht; simp at ht
      | cons f os =>
        rw [hm] at ht
        rcases List.mem_cons.mp ht with rfl | ht'
        · exact tokPre_lcpWith_self _ _
        · exact tokPre_lcpWith_mem _ _ _ ht'
    · intro p hp
      cases hm : (rs.map (fun x => pyStrip (bestTitle x))).map tokensOf with
      | nil => exact absurd hm hmap
      | cons f os =>
        rw [hm] at hp
        exact tokPre_length_le_lcpWith p f os
          (hp f (List.mem_cons_self f os))
          (fun t ht => hp t (List.mem_cons_of_mem f ht))
    · intro hcp
      show (if (commonPre ((rs.map (fun x => pyStrip (bestTitle x))).map tokensOf)).isEmpty
            then ((rs.map (fun x => pyStrip (bestTitle x)))).headD ""
            else String.intercalate " "
              (commonPre ((rs.map (fun x => pyStrip (bestTitle x))).map tokensOf)))
          = (rs.map (fun x => pyStrip (bestTitle x))).headD ""
      rw [hcp]
      rfl
    · intro hcp
      have hb2 : (commonPre ((rs.map (fun x => pyStrip (bestTitle x))).map tokensOf)).isEmpty
          = false := by
        cases hc : commonPre ((rs.map (fun x => pyStrip (bestTitle x))).map tokensOf) with
        | nil => exact absurd hc hcp
        | cons a as => rfl
      show (if (commonPre ((rs.map (fun x => pyStrip (bestTitle x))).map tokensOf)).isEmpty
            then ((rs.map (fun x => pyStrip (bestTitle x)))).headD ""
            else String.intercalate " "
              (commonPre ((rs.map (fun x => pyStrip (bestTitle x))).map tokensOf)))
          = String.intercalate " "
              (commonPre ((rs.map (fun x => pyStrip (bestTitle x))).map tokensOf))
      rw [hb2]
      rfl
  · intro l₁ l₂ h1 h2 hb
    have hall : sortedB (l₁ ++ l₂) = true := sortedB_append l₁ l₂ h1 h2 hb
    show mergeRuns (sortByStart (l₁ ++ l₂)) = mergeRuns (sortByStart l₁) ++ mergeRuns (sortByStart l₂)
    rw [sortByStart_of_sortedB _ hall, sortByStart_of_sortedB _ h1,
      sortByStart_of_sortedB _ h2]
    exact mergeRuns_append_fuel l₁.length l₁ l₂ le_rfl h1 hb

theorem c6_merger_amended_witness :
    ([tmB] ≠ ([] : List Row))
    ∧ (∀ x ∈ [tmB], x.start = tmA.start)
    ∧ mergeConcurrentEvents [tmA, tmB] =
        [{ tmA with desc := mergedTitle [tmA, tmB], best_desc := mergedTitle [tmA, tmB] }]
    ∧ mergedTitle [tmA, tmB] = "Team A" :=
  ⟨by decide, by decide,
   c6_merger_amended.2.1 tmA [tmB] (by decide) (by decide), by decide⟩

/-- C1 counterexample.  The running branch of the NOW logic never consults
`future_now_marked`, so for the time-ordered list `[ovA, ovB]` (two
non-maintenance events overlapping the instant 300) a single
`generate_html` render pass marks BOTH rows — the claim's "at most one
event per render pass" fails on the code. -/
theorem c1_overlap_counterexample :
    sortedB [ovA, ovB] = true
    ∧ isIceCut ovA = false ∧ isIceCut ovB = false
    ∧ generateHtmlMarks 300 [ovA, ovB] = [true, true]
    ∧ (generateHtmlMarks 300 [ovA, ovB]).count true = 2 := by
  decide

/-- C1 amended.  Provided at most one event satisfies the running condition
(today, `start ≤ now ≤ end`, non-maintenance) — as when the day's events are
pairwise non-overlapping — a `generate_html` render pass produces exactly
the marks of the specification's first-match state machine on the sorted
list, hence marks at most one event, the first qualifying one in ascending
start order; the pass is a pure function of the list and `now`, so repeated
invocations mark the same event.  Without that proviso every running
non-maintenance event of the day is marked.  The `generate_display_html`
pass is the same selector applied to the merged, windowed (today-only,
not-yet-over) list. -/
theorem c1_first_match_amended :
    (∀ (now : Nat) (l : List Row),
      l.countP (fun r => currentCond now r) ≤ 1 →
      generateHtmlMarks now l = specSelect now (sortByStart l))
    ∧ (∀ (now : Nat) (l : List Row), (specSelect now l).count true ≤ 1)
    ∧ (∀ (now : Nat) (l : List Row),
      generateDisplayMarks now l =
        nowMarks now ((sortByStart (mergeConcurrentEvents l)).filter (displayKeep now))) := by
  refine ⟨?_, specSelect_count_le_one, ?_⟩
  · intro now l hc
    unfold generateHtmlMarks nowMarks
    refine nowMarks_eq_specSelect now _ (sortByStart_sortedB l) ?_
    rw [sortByStart_countP]
    exact hc
  · intro now l
    unfold generateDisplayMarks nowMarks
    exact displayMarksAux_eq_filter now _ false

theorem c1_first_match_amended_witness :
    ([pstA, futB].countP (fun r => currentCond 300 r) ≤ 1)
    ∧ generateHtmlMarks 300 [pstA, futB] = specSelect 300 (sortByStart [pstA, futB])
    ∧ generateHtmlMarks 300 [pstA, futB] = [false, true] :=
  ⟨by decide, c1_first_match_amended.1 300 [pstA, futB] (by decide), by decide⟩

theorem c2_maintenance_excluded_witness :
    ([wRowA, wRowIce, wRowB][1]? = some wRowIce)
    ∧ isIceCut wRowIce = true
    ∧ (nowMarks 36000 [wRowA, wRowIce, wRowB])[1]? = some false :=
  ⟨by decide, by decide,
   c2_maintenance_excluded.1 36000 [wRowA, wRowIce, wRowB] 1 wRowIce
     (by decide) (by decide)⟩

theorem lg2F_spec : ∀ (f n : Nat), 1 ≤ n → n ≤ f →
    2 ^ lg2F f n ≤ n ∧ n < 2 ^ (lg2F f n + 1) := by
  intro f
  induction f with
  | zero => intro n h1 h2; omega
  | succ f ih =>
    intro n h1 h2
    by_cases hn : n ≤ 1
    · have : n = 1 := by omega
      subst this
      rw [lg2F, if_pos (by omega)]
      constructor
      · exact le_refl 1
      · norm_num
    · rw [lg2F, if_neg hn]
      have hd1 : 1 ≤ n / 2 := by omega
      have hd2 : n / 2 ≤ f := by omega
      obtain ⟨ha, hb⟩ := ih (n / 2) hd1 hd2
      constructor
      · rw [pow_succ]
        have : 2 ^ lg2F f (n / 2) * 2 ≤ (n / 2) * 2 := by omega
        omega
      · rw [pow_succ, pow_succ] at *
        omega

theorem bitlen_spec (m : Nat) (h : 1 ≤ m) :
    2 ^ (bitlen m - 1) ≤ m ∧ m < 2 ^ bitlen m := by
  unfold bitlen lg2
  rw [if_neg (by omega)]
  obtain ⟨ha, hb⟩ := lg2F_spec m m h le_rfl
  constructor
  · simpa using ha
  · simpa using hb

theorem two_zpow_pos (a : ℤ) : (0 : ℚ) < (2 : ℚ) ^ a :=
  zpow_pos (by norm_num) a

theorem zpow_toNat_mul (a b : ℤ) (h : a ≤ b) :
    ((2 : ℚ) ^ ((b - a).toNat)) * (2 : ℚ) ^ a = (2 : ℚ) ^ b := by
  rw [← zpow_natCast (2 : ℚ) ((b - a).toNat), Int.toNat_of_nonneg (by omega),
    ← zpow_add₀ (by norm_num : (2 : ℚ) ≠ 0)]
  congr 1
  omega

theorem dyQ_dmul (x y : Dy) : dyQ (dmul x y) = dyQ x * dyQ y := by
  unfold dyQ dmul
  push_cast
  rw [zpow_add₀ (by norm_num : (2 : ℚ) ≠ 0)]
  ring

theorem dyQ_dadd (x y : Dy) : dyQ (dadd x y) = dyQ x + dyQ y := by
  unfold dyQ dadd
  by_cases h : x.e ≤ y.e
  · rw [if_pos h]
    push_cast
    rw [add_mul]
    congr 1
    rw [mul_assoc, zpow_toNat_mul _ _ h]
  · rw [if_neg h]
    push_cast
    rw [add_mul]
    congr 1
    rw [mul_assoc, zpow_toNat_mul _ _ (by omega)]

theorem dltb_iff (x y : Dy) : dltb x y = true ↔ dyQ x < dyQ y := by
  unfold dltb dyQ
  by_cases h : x.e ≤ y.e
  · rw [if_pos h, decide_eq_true_eq]
    constructor
    · intro hlt
      have := mul_lt_mul_of_pos_right
        (show ((x.m : ℚ)) < ((y.m * 2 ^ (y.e - x.e).toNat : ℤ) : ℚ) by exact_mod_cast hlt)
        (two_zpow_pos x.e)
      calc (x.m : ℚ) * 2 ^ x.e
          < ((y.m * 2 ^ (y.e - x.e).toNat : ℤ) : ℚ) * 2 ^ x.e := this
        _ = (y.m : ℚ) * 2 ^ y.e := by
            push_cast
            rw [mul_assoc, zpow_toNat_mul _ _ h]
    · intro hlt
      have h2 : ((y.m * 2 ^ (y.e - x.e).toNat : ℤ) : ℚ) * 2 ^ x.e = (y.m : ℚ) * 2 ^ y.e := by
        push_cast
        rw [mul_assoc, zpow_toNat_mul _ _ h]
      rw [← h2] at hlt
      have := lt_of_mul_lt_mul_right hlt (le_of_lt (two_zpow_pos x.e))
      exact_mod_cast this
  · rw [if_neg h, decide_eq_true_eq]
    constructor
    · intro hlt
      have := mul_lt_mul_of_pos_right
        (show ((x.m * 2 ^ (x.e - y.e).toNat : ℤ) : ℚ) < (y.m : ℚ) by exact_mod_cast hlt)
        (two_zpow_pos y.e)
      calc (x.m : ℚ) * 2 ^ x.e
          = ((x.m * 2 ^ (x.e - y.e).toNat : ℤ) : ℚ) * 2 ^ y.e := by
            push_cast
            rw [mul_assoc, zpow_toNat_mul _ _ (by omega)]
        _ < (y.m : ℚ) * 2 ^ y.e := this
    · intro hlt
      have h2 : ((x.m * 2 ^ (x.e - y.e).toNat : ℤ) : ℚ) * 2 ^ y.e = (x.m : ℚ) * 2 ^ x.e := by
        push_cast
        rw [mul_assoc, zpow_toNat_mul _ _ (by omega)]
      rw [← h2] at hlt
      have := lt_of_mul_lt_mul_right hlt (le_of_lt (two_zpow_pos y.e))
      exact_mod_cast this

theorem rheShift_spec (m : Int) (s : Nat) (hm : 0 ≤ m) :
    |((rheShift m s : Int) : ℚ) - (m : ℚ) / 2 ^ s| ≤ 1 / 2 ∧ 0 ≤ rheShift m s := by
  have hd0 : (0 : Int) < 2 ^ s := by positivity
  have hq0 : 0 ≤ m / (2 ^ s : Int) := Int.ediv_nonneg hm (le_of_lt hd0)
  have hr0 : 0 ≤ m % (2 ^ s : Int) := Int.emod_nonneg m (by omega)
  have hrd : m % (2 ^ s : Int) < 2 ^ s := Int.emod_lt_of_pos m hd0
  have hsplit : m = 2 ^ s * (m / 2 ^ s) + m % 2 ^ s := (Int.ediv_add_emod m (2 ^ s)).symm
  have hP : (0 : ℚ) < (2 : ℚ) ^ s := by positivity
  have hB0 : (0 : ℚ) ≤ ((m % 2 ^ s : Int) : ℚ) := by exact_mod_cast hr0
  have hBP : ((m % 2 ^ s : Int) : ℚ) < (2 : ℚ) ^ s := by
    calc ((m % 2 ^ s : Int) : ℚ) < ((2 ^ s : Int) : ℚ) := by exact_mod_cast hrd
      _ = (2 : ℚ) ^ s := by push_cast; ring
  have hmq : (m : ℚ) / 2 ^ s
      = ((m / 2 ^ s : Int) : ℚ) + ((m % 2 ^ s : Int) : ℚ) / 2 ^ s := by
    rw [div_eq_iff (ne_of_gt hP), add_mul, div_mul_cancel₀ _ (ne_of_gt hP)]
    calc (m : ℚ) = ((2 ^ s * (m / 2 ^ s) + m % 2 ^ s : Int) : ℚ) := by exact_mod_cast hsplit
      _ = ((m / 2 ^ s : Int) : ℚ) * 2 ^ s + ((m % 2 ^ s : Int) : ℚ) := by push_cast; ring
  have hfrac0 : (0 : ℚ) ≤ ((m % 2 ^ s : Int) : ℚ) / 2 ^ s := div_nonneg hB0 (le_of_lt hP)
  have hfrac1 : ((m % 2 ^ s : Int) : ℚ) / 2 ^ s < 1 := by
    rw [div_lt_one hP]
    exact hBP
  unfold rheShift
  by_cases h1 : (m % (2 ^ s : Int)) * 2 < 2 ^ s
  · rw [if_pos h1]
    have hhalf : ((m % 2 ^ s : Int) : ℚ) / 2 ^ s ≤ 1 / 2 := by
      rw [div_le_iff hP]
      have h1q : ((m % 2 ^ s : Int) : ℚ) * 2 ≤ (2 : ℚ) ^ s := by
        calc ((m % 2 ^ s : Int) : ℚ) * 2 = ((m % 2 ^ s * 2 : Int) : ℚ) := by push_cast; ring
          _ ≤ ((2 ^ s : Int) : ℚ) := by exact_mod_cast le_of_lt h1
          _ = (2 : ℚ) ^ s := by push_cast; ring
      linarith
    refine ⟨?_, hq0⟩
    rw [hmq, abs_le]
    constructor <;> linarith
  · rw [if_neg h1]
    by_cases h2 : (2 ^ s : Int) < (m % (2 ^ s : Int)) * 2
    · rw [if_pos h2]
      have hhalf : 1 / 2 ≤ ((m % 2 ^ s : Int) : ℚ) / 2 ^ s := by
        rw [le_div_iff hP]
        have h2q : (2 : ℚ) ^ s ≤ ((m % 2 ^ s : Int) : ℚ) * 2 := by
          calc (2 : ℚ) ^ s = ((2 ^ s : Int) : ℚ) := by push_cast; ring
            _ ≤ ((m % 2 ^ s * 2 : Int) : ℚ) := by exact_mod_cast le_of_lt h2
            _ = ((m % 2 ^ s : Int) : ℚ) * 2 := by push_cast; ring
        linarith
      have hv : ((m / 2 ^ s + 1 : Int) : ℚ) = ((m / 2 ^ s : Int) : ℚ) + 1 := by
        push_cast; ring
      refine ⟨?_, by omega⟩
      rw [hmq, hv, abs_le]
      constructor <;> linarith
    · rw [if_neg h2]
      have heq : (m % (2 ^ s : Int)) * 2 = 2 ^ s := by omega
      have hhalf : ((m % 2 ^ s : Int) : ℚ) / 2 ^ s = 1 / 2 := by
        rw [div_eq_iff (ne_of_gt hP)]
        have : ((m % 2 ^ s * 2 : Int) : ℚ) = ((2 ^ s : Int) : ℚ) := by exact_mod_cast heq
        push_cast at this
        linarith
      by_cases h3 : (m / (2 ^ s : Int)) % 2 = 0
      · rw [if_pos h3]
        refine ⟨?_, hq0⟩
        rw [hmq, abs_le]
        constructor <;> linarith
      · rw [if_neg h3]
        have hv : ((m / 2 ^ s + 1 : Int) : ℚ) = ((m / 2 ^ s : Int) : ℚ) + 1 := by
          push_cast; ring
        refine ⟨?_, by omega⟩
        rw [hmq, hv, abs_le]
        constructor <;> linarith

theorem dyQ_nonneg (x : Dy) (h : 0 ≤ x.m) : 0 ≤ dyQ x := by
  unfold dyQ
  have : (0 : ℚ) ≤ (x.m : ℚ) := by exact_mod_cast h
  exact mul_nonneg this (le_of_lt (two_zpow_pos x.e))

theorem drnd_spec (x : Dy) (hm : 0 ≤ x.m) :
    |dyQ (drnd x) - dyQ x| ≤ dyQ x / 2 ^ 53 ∧ 0 ≤ (drnd x).m := by
  unfold drnd
  by_cases hk : bitlen x.m.natAbs ≤ 53
  · rw [if_pos hk]
    refine ⟨?_, hm⟩
    rw [sub_self, abs_zero]
    exact div_nonneg (dyQ_nonneg x hm) (by positivity)
  · rw [if_neg hk]
    have hk54 : 54 ≤ bitlen x.m.natAbs := by omega
    rw [show ((bitlen x.m.natAbs : Int) - 53) = ((bitlen x.m.natAbs - 53 : Nat) : Int) by omega]
    have hmpos : 1 ≤ x.m.natAbs := by
      by_contra hc
      have : x.m.natAbs = 0 := by omega
      rw [this] at hk
      simp [bitlen] at hk
    obtain ⟨hlow, _⟩ := bitlen_spec x.m.natAbs hmpos
    obtain ⟨herr, hnn⟩ := rheShift_spec x.m (bitlen x.m.natAbs - 53) hm
    refine ⟨?_, hnn⟩
    have hxm : (x.m.natAbs : Int) = x.m := Int.natAbs_of_nonneg hm
    have hmlow : (2 : ℚ) ^ (bitlen x.m.natAbs - 1 : Nat) ≤ (x.m : ℚ) := by
      have : ((2 ^ (bitlen x.m.natAbs - 1) : Nat) : Int) ≤ x.m := by
        rw [← hxm]
        exact_mod_cast hlow
      exact_mod_cast this
    have key : dyQ ⟨rheShift x.m (bitlen x.m.natAbs - 53), x.e + (bitlen x.m.natAbs - 53 : Nat)⟩
        - dyQ x
        = (((rheShift x.m (bitlen x.m.natAbs - 53) : Int) : ℚ)
            - (x.m : ℚ) / 2 ^ (bitlen x.m.natAbs - 53 : Nat))
          * (2 : ℚ) ^ (x.e + (bitlen x.m.natAbs - 53 : Nat)) := by
      unfold dyQ
      rw [sub_mul]
      congr 1
      rw [div_mul_eq_mul_div, zpow_add₀ (by norm_num : (2:ℚ) ≠ 0)]
      rw [zpow_natCast]
      field_simp
      ring
    rw [key, abs_mul, abs_of_pos (two_zpow_pos _)]
    have hstep : |((rheShift x.m (bitlen x.m.natAbs - 53) : Int) : ℚ)
        - (x.m : ℚ) / 2 ^ (bitlen x.m.natAbs - 53 : Nat)|
          * (2 : ℚ) ^ (x.e + (bitlen x.m.natAbs - 53 : Nat))
        ≤ (1 / 2) * (2 : ℚ) ^ (x.e + (bitlen x.m.natAbs - 53 : Nat)) :=
      mul_le_mul_of_nonneg_right herr (le_of_lt (two_zpow_pos _))
    refine le_trans hstep ?_
    rw [le_div_iff (by positivity : (0:ℚ) < 2 ^ 53)]
    have hgoal : (1 / 2 : ℚ) * (2 : ℚ) ^ (x.e + (bitlen x.m.natAbs - 53 : Nat)) * 2 ^ 53
        = (2 : ℚ) ^ (bitlen x.m.natAbs - 1 : Nat) * (2 : ℚ) ^ x.e := by
      rw [zpow_add₀ (by norm_num : (2:ℚ) ≠ 0), zpow_natCast]
      have hexp : (2 : ℚ) ^ (bitlen x.m.natAbs - 53 : Nat) * 2 ^ 53
          = (2 : ℚ) ^ (bitlen x.m.natAbs - 1 : Nat) * 2 := by
        rw [← pow_add, ← pow_succ]
        congr 1
        omega
      field_simp
      rw [mul_assoc, hexp]
      ring
    rw [hgoal]
    unfold dyQ
    exact mul_le_mul_of_nonneg_right hmlow (le_of_lt (two_zpow_pos x.e))

theorem c299_val : dyQ c299 = 5386305154335113 / 2 ^ 54 := by
  unfold dyQ c299
  norm_num

theorem c587_val : dyQ c587 = 2643612981266481 / 2 ^ 52 := by
  unfold dyQ c587
  norm_num

theorem c114_val : dyQ c114 = 8214565720323785 / 2 ^ 56 := by
  unfold dyQ c114
  norm_num

theorem dadd_m_nonneg (x y : Dy) (hx : 0 ≤ x.m) (hy : 0 ≤ y.m) :
    0 ≤ (dadd x y).m := by
  unfold dadd
  by_cases h : x.e ≤ y.e
  · rw [if_pos h]
    have : (0 : Int) ≤ y.m * 2 ^ (y.e - x.e).toNat := by positivity
    simpa using by omega
  · rw [if_neg h]
    have : (0 : Int) ≤ x.m * 2 ^ (x.e - y.e).toNat := by positivity
    simpa using by omega

theorem prodTerm_close (C : Dy) (exact : ℚ) (n : Nat) (hCm : 0 ≤ C.m)
    (hCerr : |dyQ C - exact| ≤ 1 / 2 ^ 54) (hCub : dyQ C ≤ 3 / 5)
    (hex0 : 0 ≤ exact) (hn : n ≤ 255) :
    |dyQ (drnd (dmul C ⟨(n : Int), 0⟩)) - exact * n| ≤ 1 / 2 ^ 44
      ∧ 0 ≤ (drnd (dmul C ⟨(n : Int), 0⟩)).m
      ∧ dyQ (drnd (dmul C ⟨(n : Int), 0⟩)) ≤ 154 := by
  have hC0 : 0 ≤ dyQ C := dyQ_nonneg C hCm
  have hnq : ((n : Int) : ℚ) = (n : ℚ) := by push_cast; ring
  have hdn : dyQ (⟨(n : Int), 0⟩ : Dy) = (n : ℚ) := by
    unfold dyQ
    simp
  have e1 : dyQ (dmul C ⟨(n : Int), 0⟩) = dyQ C * n := by
    rw [dyQ_dmul, hdn]
  have hm1 : 0 ≤ (dmul C ⟨(n : Int), 0⟩).m := by
    unfold dmul
    have : (0 : Int) ≤ (n : Int) := by positivity
    exact mul_nonneg hCm this
  obtain ⟨herr, hnn⟩ := drnd_spec (dmul C ⟨(n : Int), 0⟩) hm1
  rw [e1] at herr
  have hnq255 : (n : ℚ) ≤ 255 := by exact_mod_cast hn
  have hn0 : (0 : ℚ) ≤ (n : ℚ) := by positivity
  have hprod_ub : dyQ C * n ≤ 153 := by
    calc dyQ C * n ≤ (3 / 5) * 255 := by
          exact mul_le_mul hCub hnq255 hn0 (by norm_num)
      _ = 153 := by norm_num
  have hprod0 : 0 ≤ dyQ C * n := mul_nonneg hC0 hn0
  have hround : |dyQ (drnd (dmul C ⟨(n : Int), 0⟩)) - dyQ C * n| ≤ 153 / 2 ^ 53 := by
    refine le_trans herr ?_
    rw [div_le_div_iff (by positivity) (by positivity)]
    nlinarith
  have hconst : |dyQ C * n - exact * n| ≤ 255 / 2 ^ 54 := by
    rw [← sub_mul, abs_mul, abs_of_nonneg hn0]
    calc |dyQ C - exact| * n ≤ (1 / 2 ^ 54) * 255 := by
          exact mul_le_mul hCerr hnq255 hn0 (by positivity)
      _ ≤ 255 / 2 ^ 54 := by norm_num
  rw [abs_le] at hround hconst ⊢
  refine ⟨⟨by nlinarith, by nlinarith⟩, hnn, by nlinarith⟩

theorem c299_err : |dyQ c299 - 299 / 1000| ≤ 1 / 2 ^ 54 := by
  rw [c299_val, abs_le]
  norm_num

theorem c587_err : |dyQ c587 - 587 / 1000| ≤ 1 / 2 ^ 54 := by
  rw [c587_val, abs_le]
  norm_num

theorem c114_err : |dyQ c114 - 114 / 1000| ≤ 1 / 2 ^ 54 := by
  rw [c114_val, abs_le]
  norm_num

theorem c299_ub : dyQ c299 ≤ 3 / 5 := by
  rw [c299_val]
  norm_num

theorem c587_ub : dyQ c587 ≤ 3 / 5 := by
  rw [c587_val]
  norm_num

theorem c114_ub : dyQ c114 ≤ 3 / 5 := by
  rw [c114_val]
  norm_num

/-- The dyadic model of the binary64 luminance stays within `1/2000` of the
exact rational luminance, for every byte triple. -/
theorem fLum_close (r g b : Nat) (hr : r ≤ 255) (hg : g ≤ 255) (hb : b ≤ 255) :
    |dyQ (fLum r g b) - (299 * r + 587 * g + 114 * b : ℚ) / 1000| ≤ 1 / 2000 := by
  obtain ⟨h1, h1m, h1u⟩ :=
    prodTerm_close c299 (299 / 1000) r (by decide) c299_err c299_ub (by norm_num) hr
  obtain ⟨h2, h2m, h2u⟩ :=
    prodTerm_close c587 (587 / 1000) g (by decide) c587_err c587_ub (by norm_num) hg
  obtain ⟨h3, h3m, h3u⟩ :=
    prodTerm_close c114 (114 / 1000) b (by decide) c114_err c114_ub (by norm_num) hb
  have h1z : 0 ≤ dyQ (drnd (dmul c299 ⟨(r : Int), 0⟩)) := dyQ_nonneg _ h1m
  have h2z : 0 ≤ dyQ (drnd (dmul c587 ⟨(g : Int), 0⟩)) := dyQ_nonneg _ h2m
  have h3z : 0 ≤ dyQ (drnd (dmul c114 ⟨(b : Int), 0⟩)) := dyQ_nonneg _ h3m
  have hsm : 0 ≤ (dadd (drnd (dmul c299 ⟨(r : Int), 0⟩)) (drnd (dmul c587 ⟨(g : Int), 0⟩))).m :=
    dadd_m_nonneg _ _ h1m h2m
  obtain ⟨hs1, hs1m⟩ := drnd_spec
    (dadd (drnd (dmul c299 ⟨(r : Int), 0⟩)) (drnd (dmul c587 ⟨(g : Int), 0⟩))) hsm
  rw [dyQ_dadd] at hs1
  have hs1z : 0 ≤ dyQ (drnd (dadd (drnd (dmul c299 ⟨(r : Int), 0⟩))
      (drnd (dmul c587 ⟨(g : Int), 0⟩)))) := dyQ_nonneg _ hs1m
  have hsum_ub : dyQ (drnd (dmul c299 ⟨(r : Int), 0⟩))
      + dyQ (drnd (dmul c587 ⟨(g : Int), 0⟩)) ≤ 308 := by linarith
  have hs1' : |dyQ (drnd (dadd (drnd (dmul c299 ⟨(r : Int), 0⟩))
        (drnd (dmul c587 ⟨(g : Int), 0⟩))))
      - (dyQ (drnd (dmul c299 ⟨(r : Int), 0⟩))
          + dyQ (drnd (dmul c587 ⟨(g : Int), 0⟩)))| ≤ 308 / 2 ^ 53 := by
    refine le_trans hs1 ?_
    rw [div_le_div_iff (by positivity) (by positivity)]
    nlinarith
  have hs1u : dyQ (drnd (dadd (drnd (dmul c299 ⟨(r : Int), 0⟩))
      (drnd (dmul c587 ⟨(g : Int), 0⟩)))) ≤ 309 := by
    rw [abs_le] at hs1'
    linarith
  have hfm : 0 ≤ (dadd (drnd (dadd (drnd (dmul c299 ⟨(r : Int), 0⟩))
      (drnd (dmul c587 ⟨(g : Int), 0⟩)))) (drnd (dmul c114 ⟨(b : Int), 0⟩))).m :=
    dadd_m_nonneg _ _ hs1m h3m
  obtain ⟨hf, _⟩ := drnd_spec
    (dadd (drnd (dadd (drnd (dmul c299 ⟨(r : Int), 0⟩)) (drnd (dmul c587 ⟨(g : Int), 0⟩))))
      (drnd (dmul c114 ⟨(b : Int), 0⟩))) hfm
  rw [dyQ_dadd] at hf
  have hfin_ub : dyQ (drnd (dadd (drnd (dmul c299 ⟨(r : Int), 0⟩))
        (drnd (dmul c587 ⟨(g : Int), 0⟩))))
      + dyQ (drnd (dmul c114 ⟨(b : Int), 0⟩)) ≤ 463 := by linarith
  have hfz : 0 ≤ dyQ (drnd (dadd (drnd (dmul c299 ⟨(r : Int), 0⟩))
        (drnd (dmul c587 ⟨(g : Int), 0⟩))))
      + dyQ (drnd (dmul c114 ⟨(b : Int), 0⟩)) := by linarith
  have hf' : |dyQ (fLum r g b)
      - (dyQ (drnd (dadd (drnd (dmul c299 ⟨(r : Int), 0⟩))
            (drnd (dmul c587 ⟨(g : Int), 0⟩))))
          + dyQ (drnd (dmul c114 ⟨(b : Int), 0⟩)))| ≤ 463 / 2 ^ 53 := by
    refine le_trans hf ?_
    rw [div_le_div_iff (by positivity) (by positivity)]
    nlinarith
  have hsplit : (299 * r + 587 * g + 114 * b : ℚ) / 1000
      = (299 / 1000) * r + (587 / 1000) * g + (114 / 1000) * b := by
    field_simp
  rw [hsplit, abs_le] at *
  constructor <;> linarith

theorem fLum_decides (r g b : Nat) (hr : r ≤ 255) (hg : g ≤ 255) (hb : b ≤ 255) :
    (299 * r + 587 * g + 114 * b ≤ 139999 → dltb (fLum r g b) ⟨140, 0⟩ = true)
    ∧ (140001 ≤ 299 * r + 587 * g + 114 * b → dltb (fLum r g b) ⟨140, 0⟩ = false) := by
  have hclose := fLum_close r g b hr hg hb
  have h140 : dyQ ⟨140, 0⟩ = 140 := by unfold dyQ; simp
  rw [abs_le] at hclose
  constructor
  · intro hE
    rw [dltb_iff, h140]
    have hq : (299 * (r : ℚ) + 587 * g + 114 * b) ≤ 139999 := by
      have : ((299 * r + 587 * g + 114 * b : Nat) : ℚ) ≤ 139999 := by exact_mod_cast hE
      push_cast at this
      linarith
    linarith
  · intro hE
    have hq : (140001 : ℚ) ≤ 299 * (r : ℚ) + 587 * g + 114 * b := by
      have : (140001 : ℚ) ≤ ((299 * r + 587 * g + 114 * b : Nat) : ℚ) := by exact_mod_cast hE
      push_cast at this
      linarith
    cases hdd : dltb (fLum r g b) ⟨140, 0⟩ with
    | false => rfl
    | true =>
      have hlt := (dltb_iff _ _).mp hdd
      rw [h140] at hlt
      linarith

theorem hexDigitVal_le (c : Char) (v : Nat) (h : hexDigitVal c = some v) : v ≤ 15 := by
  unfold hexDigitVal at h
  by_cases h1 : 48 ≤ c.toNat ∧ c.toNat ≤ 57
  · rw [if_pos h1] at h
    injection h with hv2
    omega
  · rw [if_neg h1] at h
    by_cases h2 : 97 ≤ c.toNat ∧ c.toNat ≤ 102
    · rw [if_pos h2] at h
      injection h with hv2
      omega
    · rw [if_neg h2] at h
      by_cases h3 : 65 ≤ c.toNat ∧ c.toNat ≤ 70
      · rw [if_pos h3] at h
        injection h with hv2
        omega
      · rw [if_neg h3] at h
        cases h

theorem hv_le_of_isSome (c : Char) (h : (hexDigitVal c).isSome = true) : hv c ≤ 15 := by
  obtain ⟨v, hvv⟩ := Option.isSome_iff_exists.mp h
  unfold hv
  rw [hvv]
  exact hexDigitVal_le c v hvv

theorem hex_ne_hash {c : Char} (h : (hexDigitVal c).isSome = true) : (c == '#') = false := by
  cases hc : (c == '#') with
  | false => rfl
  | true =>
    have hce : c = '#' := eq_of_beq hc
    subst hce
    have hnone : hexDigitVal '#' = none := by decide
    rw [hnone] at h
    cases h

theorem pyIntHex_pair (a b : Char) (ha : (hexDigitVal a).isSome = true)
    (hb : (hexDigitVal b).isSome = true) :
    pyIntHex [a, b] = some (16 * hv a + hv b) := by
  obtain ⟨va, hva⟩ := Option.isSome_iff_exists.mp ha
  obtain ⟨vb, hvb⟩ := Option.isSome_iff_exists.mp hb
  show ([a, b].foldl (fun acc c =>
      match acc, hexDigitVal c with
      | some a, some v => some (16 * a + v)
      | _, _ => none) (some 0)) = some (16 * hv a + hv b)
  rw [List.foldl_cons, List.foldl_cons, List.foldl_nil]
  simp only [hva, hvb, hv, Option.getD_some]
  norm_num

theorem stripHash_cons_hash (l : List Char) : stripHashAll ('#' :: l) = stripHashAll l := rfl

theorem stripHash_cons_ne (c : Char) (l : List Char) (h : (c == '#') = false) :
    stripHashAll (c :: l) = c :: l := by
  unfold stripHashAll
  rw [h]
  simp

theorem textColor_hex6 (a1 a2 a3 a4 a5 a6 : Char)
    (h1 : (hexDigitVal a1).isSome = true) (h2 : (hexDigitVal a2).isSome = true)
    (h3 : (hexDigitVal a3).isSome = true) (h4 : (hexDigitVal a4).isSome = true)
    (h5 : (hexDigitVal a5).isSome = true) (h6 : (hexDigitVal a6).isSome = true) :
    textColor (String.mk ['#', a1, a2, a3, a4, a5, a6])
      = some (if dltb (fLum (16 * hv a1 + hv a2) (16 * hv a3 + hv a4) (16 * hv a5 + hv a6))
                ⟨140, 0⟩ then "white" else "black") := by
  have hg : colorGuard (String.mk ['#', a1, a2, a3, a4, a5, a6]).toList = false := rfl
  unfold textColor
  rw [hg]
  simp only [Bool.false_eq_true, if_false]
  have hs : stripHashAll (String.mk ['#', a1, a2, a3, a4, a5, a6]).toList
      = [a1, a2, a3, a4, a5, a6] := by
    show stripHashAll ('#' :: [a1, a2, a3, a4, a5, a6]) = _
    rw [stripHash_cons_hash, stripHash_cons_ne a1 _ (hex_ne_hash h1)]
  rw [hs]
  have he : expand3 [a1, a2, a3, a4, a5, a6] = [a1, a2, a3, a4, a5, a6] := rfl
  rw [he]
  show (match pyIntHex [a1, a2], pyIntHex [a3, a4], pyIntHex [a5, a6] with
        | some r, some g, some b =>
          some (if dltb (fLum r g b) ⟨140, 0⟩ then "white" else "black")
        | _, _, _ => none) = _
  rw [pyIntHex_pair a1 a2 h1 h2, pyIntHex_pair a3 a4 h3 h4, pyIntHex_pair a5 a6 h5 h6]

theorem textColor_hex3 (a1 a2 a3 : Char)
    (h1 : (hexDigitVal a1).isSome = true) (h2 : (hexDigitVal a2).isSome = true)
    (h3 : (hexDigitVal a3).isSome = true) :
    textColor (String.mk ['#', a1, a2, a3])
      = some (if dltb (fLum (16 * hv a1 + hv a1) (16 * hv a2 + hv a2) (16 * hv a3 + hv a3))
                ⟨140, 0⟩ then "white" else "black") := by
  have hg : colorGuard (String.mk ['#', a1, a2, a3]).toList = false := rfl
  unfold textColor
  rw [hg]
  simp only [Bool.false_eq_true, if_false]
  have hs : stripHashAll (String.mk ['#', a1, a2, a3]).toList = [a1, a2, a3] := by
    show stripHashAll ('#' :: [a1, a2, a3]) = _
    rw [stripHash_cons_hash, stripHash_cons_ne a1 _ (hex_ne_hash h1)]
  rw [hs]
  have he : expand3 [a1, a2, a3] = [a1, a1, a2, a2, a3, a3] := rfl
  rw [he]
  show (match pyIntHex [a1, a1], pyIntHex [a2, a2], pyIntHex [a3, a3] with
        | some r, some g, some b =>
          some (if dltb (fLum r g b) ⟨140, 0⟩ then "white" else "black")
        | _, _, _ => none) = _
  rw [pyIntHex_pair a1 a1 h1 h1, pyIntHex_pair a2 a2 h2 h2, pyIntHex_pair a3 a3 h3 h3]

/-- C5 counterexample.  For `#10de2b` the exact luminance is exactly 140
(299·16 + 587·222 + 114·43 = 140000), so the claim's rule
"white exactly when 0.299R + 0.587G + 0.114B < 140" demands black; but the
binary64 evaluation of the sum comes out just below 140 and `text_color`
returns white. -/
theorem c5_boundary_counterexample :
    299 * 16 + 587 * 222 + 114 * 43 = 140000
      ∧ textColor "#10de2b" = some "white" := by
  constructor
  · decide
  · decide

/-- C5 amended.  For every well-formed color string (marker plus 3 or 6 hex
digits) `text_color` parses the channels — doubling each digit of the
3-digit shorthand — and returns white exactly when the IEEE-754 binary64
evaluation of `0.299*R + 0.587*G + 0.114*B` is below 140.  That agrees with
the exact formula whenever `299R + 587G + 114B ≠ 140000`: strictly below
the boundary forces white, strictly above forces black; only at the exact
boundary does rounding decide (see the counterexample).  In particular
`#000000` is white and `#FFFFFF`, `#fff` are black. -/
theorem c5_luminance_amended :
    (∀ a1 a2 a3 a4 a5 a6 : Char,
      (hexDigitVal a1).isSome = true → (hexDigitVal a2).isSome = true →
      (hexDigitVal a3).isSome = true → (hexDigitVal a4).isSome = true →
      (hexDigitVal a5).isSome = true → (hexDigitVal a6).isSome = true →
      textColor (String.mk ['#', a1, a2, a3, a4, a5, a6])
        = some (if dltb (fLum (16 * hv a1 + hv a2) (16 * hv a3 + hv a4) (16 * hv a5 + hv a6))
                  ⟨140, 0⟩ then "white" else "black"))
    ∧ (∀ a1 a2 a3 : Char,
      (hexDigitVal a1).isSome = true → (hexDigitVal a2).isSome = true →
      (hexDigitVal a3).isSome = true →
      textColor (String.mk ['#', a1, a2, a3])
        = some (if dltb (fLum (16 * hv a1 + hv a1) (16 * hv a2 + hv a2) (16 * hv a3 + hv a3))
                  ⟨140, 0⟩ then "white" else "black"))
    ∧ (∀ r g b : Nat, r ≤ 255 → g ≤ 255 → b ≤ 255 →
        (299 * r + 587 * g + 114 * b ≤ 139999 → dltb (fLum r g b) ⟨140, 0⟩ = true)
        ∧ (140001 ≤ 299 * r + 587 * g + 114 * b → dltb (fLum r g b) ⟨140, 0⟩ = false))
    ∧ (∀ ch : Char, (hexDigitVal ch).isSome = true → hv ch ≤ 15)
    ∧ textColor "#000000" = some "white"
    ∧ textColor "#FFFFFF" = some "black"
    ∧ textColor "#fff" = some "black" := by
  refine ⟨textColor_hex6, textColor_hex3, fLum_decides, hv_le_of_isSome,
    by decide, by decide, by decide⟩

theorem c5_luminance_amended_witness :
    ((hexDigitVal '1').isSome = true) ∧ ((hexDigitVal '0').isSome = true)
      ∧ ((hexDigitVal 'd').isSome = true) ∧ ((hexDigitVal 'e').isSome = true)
      ∧ ((hexDigitVal '2').isSome = true) ∧ ((hexDigitVal 'b').isSome = true)
      ∧ textColor (String.mk ['#', '1', '0', 'd', 'e', '2', 'b'])
        = some (if dltb (fLum (16 * hv '1' + hv '0') (16 * hv 'd' + hv 'e')
                  (16 * hv '2' + hv 'b')) ⟨140, 0⟩ then "white" else "black")
      ∧ dltb (fLum 200 10 0) ⟨140, 0⟩ = true :=
  ⟨by decide, by decide, by decide, by decide, by decide, by decide,
   c5_luminance_amended.1 '1' '0' 'd' 'e' '2' 'b'
     (by decide) (by decide) (by decide) (by decide) (by decide) (by decide),
   (c5_luminance_amended.2.2.1 200 10 0 (by decide) (by decide) (by decide)).1 (by decide)⟩

theorem addEventE_isOk (r : RawRow) :
    (addEventE r).toOption.isSome = (r.start.isSome && r.stop.isSome) := by
  unfold addEventE
  cases r.start <;> cases r.stop <;> rfl

theorem length_filterMap_eq_countP (f : α → Option β) :
    ∀ l : List α, (l.filterMap f).length = l.countP (fun a => (f a).isSome) := by
  intro l
  induction l with
  | nil => rfl
  | cons a t ih =>
    rw [List.filterMap_cons, List.countP_cons]
    cases hfa : f a with
    | none => rw [ih]; simp [hfa]
    | some b => simp only [List.length_cons, ih, hfa]; simp

/-- C8.  Feed round-trip: the main calendar of `csv_to_ics` holds exactly
one entry per row whose two timestamps parse — the per-row `try/except`
skips only failing rows — its length equals the number of parseable rows,
and every feed entry originates from an input row via `add_event`; the
synthetic gap events are built separately and never offered to any
calendar, and `merge_concurrent_events` is applied only to the rendered
pages, never to the feed construction. -/
theorem c8_feed_roundtrip :
    (∀ rows : List RawRow,
      ingestCal rows = rows.filterMap (fun r => (addEventE r).toOption))
    ∧ (∀ rows : List RawRow,
      (ingestCal rows).length = rows.countP (fun r => r.start.isSome && r.stop.isSome))
    ∧ (∀ rows : List RawRow, ∀ e ∈ ingestCal rows, ∃ r ∈ rows, addEventE r = .ok e) := by
  have h1 : ∀ rows : List RawRow,
      ingestCal rows = rows.filterMap (fun r => (addEventE r).toOption) := by
    intro rows
    induction rows with
    | nil => rfl
    | cons r rs ih =>
      cases hr : addEventE r with
      | ok e =>
        have hc : ingestCal (r :: rs) = e :: ingestCal rs := by
          show (match addEventE r with
                | Except.ok ev => ev :: ingestCal rs
                | Except.error _ => ingestCal rs) = e :: ingestCal rs
          rw [hr]
        rw [hc, ih, List.filterMap_cons]
        simp only [hr]
        rfl
      | error u =>
        have hc : ingestCal (r :: rs) = ingestCal rs := by
          show (match addEventE r with
                | Except.ok ev => ev :: ingestCal rs
                | Except.error _ => ingestCal rs) = ingestCal rs
          rw [hr]
        rw [hc, ih, List.filterMap_cons]
        simp only [hr]
        rfl
  refine ⟨h1, ?_, ?_⟩
  · intro rows
    rw [h1, length_filterMap_eq_countP]
    refine List.countP_congr ?_
    intro r _
    rw [addEventE_isOk r]
  · intro rows
    induction rows with
    | nil => intro e he; simp [ingestCal] at he
    | cons r rs ih =>
      intro e he
      cases hr : addEventE r with
      | ok e0 =>
        have hc : ingestCal (r :: rs) = e0 :: ingestCal rs := by
          show (match addEventE r with
                | Except.ok ev => ev :: ingestCal rs
                | Except.error _ => ingestCal rs) = e0 :: ingestCal rs
          rw [hr]
        rw [hc] at he
        rcases List.mem_cons.mp he with rfl | he'
        · exact ⟨r, List.mem_cons_self r rs, hr⟩
        · obtain ⟨r', hr', he''⟩ := ih e he'
          exact ⟨r', List.mem_cons_of_mem r hr', he''⟩
      | error u =>
        have hc : ingestCal (r :: rs) = ingestCal rs := by
          show (match addEventE r with
                | Except.ok ev => ev :: ingestCal rs
                | Except.error _ => ingestCal rs) = ingestCal rs
          rw [hr]
        rw [hc] at he
        obtain ⟨r', hr', hok⟩ := ih e he
        exact ⟨r', List.mem_cons_of_mem r hr', hok⟩

theorem c8_feed_roundtrip_witness :
    (⟨"Good", 32400, 36000, "Ice Rink", ""⟩ : CalEvent)
        ∈ ingestCal [⟨some 32400, some 36000, "Good", "", "1", "", false, ""⟩]
      ∧ (∃ r ∈ [(⟨some 32400, some 36000, "Good", "", "1", "", false, ""⟩ : RawRow)],
          addEventE r = .ok (⟨"Good", 32400, 36000, "Ice Rink", ""⟩ : CalEvent)) :=
  ⟨by decide,
   c8_feed_roundtrip.2.2 [⟨some 32400, some 36000, "Good", "", "1", "", false, ""⟩]
     ⟨"Good", 32400, 36000, "Ice Rink", ""⟩ (by decide)⟩

/-- C7.  One unparseable row does abort the run: `csv_to_ics` appends every
row to `all_rows` before the `try/except`, so the calendar loop skips the
bad row (one entry results), but `build_synthetic_icecuts` re-parses it in
its sort key and raises an uncaught `ValueError`, as does the `ice_real`
selection loop — against the claim (and §7 of the specification) that a bad
row is isolated and the rest of the run completes.  On the good row alone
every stage succeeds. -/
theorem c7_bad_row_aborts :
    ingestCal [goodRink, badRink] = [⟨"Good", 32400, 36000, "Ice Rink", ""⟩]
      ∧ buildSyntheticE [goodRink, badRink] = .error ()
      ∧ iceRealE [goodRink, badRink] = .error ()
      ∧ buildSyntheticE [goodRink] = .ok []
      ∧ iceRealE [goodRink] = .ok [] := by
  exact ⟨rfl, rfl, rfl, rfl, rfl⟩
